import Mathlib

/-!
Verification of the MCTS engine in `src/index.ts` (dbravender/mcts,
TypeScript implementation).

The engine is shallowly embedded: the mutable `Node` objects of the source
become a pure tree type `NTree`, and every stateful method becomes a function
returning the updated tree.  The game abstraction (`Game<TMove, TPlayer>`)
becomes a record of pure functions over an explicit state type `S`; the
source's `clone()` is the identity in this pure model (a cloned value *is* an
independent copy).  `Math.random()` is modelled by an explicit supply of
natural numbers (`List ℕ`), each draw `r` selecting index `r % bound`, which
ranges over exactly the values `Math.floor(Math.random() * bound)` can take.
JavaScript's stable `Array.prototype.sort` is modelled by a stable insertion
sort parametrised by the comparator; the engine itself is parametrised by the
strict-less comparator `ltNode` (the source's `compareNodes`, whose
floating-point UCB1 arithmetic is modelled separately over ℝ as a relation).
A `throw` becomes `Except.error`, and possible non-termination of the
source's unbounded `while` loop is made explicit with fuel: a result of
`none` means the walk ran out of fuel.
-/

namespace Mcts

/-- `getPossibleMoves()` returns either a plain array of moves (player
decision) or a `RandomSelection` wrapper (chance distribution),
`src/index.ts` lines 6-11. -/
inductive MovesResult (M : Type) where
  | decision (moves : List M)
  | randomSelection (moves : List M)
deriving DecidableEq, Repr

/-- The underlying list of moves of either variant. -/
def MovesResult.moves {M : Type} : MovesResult M → List M
  | .decision ms => ms
  | .randomSelection ms => ms

/-- The `Game` interface of `src/index.ts` lines 10-16, as a record of pure
functions over an explicit state type `S`.  `performMove` returns the new
state instead of mutating; `clone` is the identity on values and therefore
not a field. -/
structure GameRules (S M P : Type) where
  getPossibleMoves : S → MovesResult M
  performMove : S → M → S
  getCurrentPlayer : S → P
  getWinner : S → Option P

/-- A search-tree node, `class Node` of `src/index.ts` lines 29-39.
`wins : PlayerScore` (a JS object keyed by `String(player)`) is an
association list; `children === null` (not yet expanded) is the flag
`expanded = false` paired with an empty list. -/
inductive NTree (M P : Type) : Type where
  | mk (move : Option M) (visits : ℕ) (wins : List (P × ℕ))
       (expanded : Bool) (children : List (NTree M P)) (randomNode : Bool)

mutual

/-- Decidable equality of nodes (used to evaluate concrete runs). -/
def NTree.decEq {M P : Type} [DecidableEq M] [DecidableEq P] :
    (a b : NTree M P) → Decidable (a = b)
  | .mk m v w e cs r, .mk m' v' w' e' cs' r' =>
    if h1 : m = m' then
      if h2 : v = v' then
        if h3 : w = w' then
          if h4 : e = e' then
            if h6 : r = r' then
              match NTree.decEqList cs cs' with
              | isTrue h5 => isTrue (by rw [h1, h2, h3, h4, h5, h6])
              | isFalse h5 => isFalse (by
                  intro hh; injection hh with a b c d f g; exact h5 f)
            else isFalse (by intro hh; injection hh with a b c d f g; exact h6 g)
          else isFalse (by intro hh; injection hh with a b c d f g; exact h4 d)
        else isFalse (by intro hh; injection hh with a b c d f g; exact h3 c)
      else isFalse (by intro hh; injection hh with a b c d f g; exact h2 b)
    else isFalse (by intro hh; injection hh with a b c d f g; exact h1 a)

/-- Decidable equality of node lists. -/
def NTree.decEqList {M P : Type} [DecidableEq M] [DecidableEq P] :
    (a b : List (NTree M P)) → Decidable (a = b)
  | [], [] => isTrue rfl
  | [], _ :: _ => isFalse (fun hh => List.noConfusion hh)
  | _ :: _, [] => isFalse (fun hh => List.noConfusion hh)
  | x :: xs, y :: ys =>
    match NTree.decEq x y, NTree.decEqList xs ys with
    | isTrue h1, isTrue h2 => isTrue (by rw [h1, h2])
    | isFalse h1, _ => isFalse (by intro hh; injection hh with a b; exact h1 a)
    | _, isFalse h2 => isFalse (by intro hh; injection hh with a b; exact h2 b)

end

instance {M P : Type} [DecidableEq M] [DecidableEq P] : DecidableEq (NTree M P) :=
  NTree.decEq

namespace NTree

variable {M P : Type}

def move : NTree M P → Option M
  | .mk m _ _ _ _ _ => m

def visits : NTree M P → ℕ
  | .mk _ v _ _ _ _ => v

def wins : NTree M P → List (P × ℕ)
  | .mk _ _ w _ _ _ => w

def expanded : NTree M P → Bool
  | .mk _ _ _ e _ _ => e

def children : NTree M P → List (NTree M P)
  | .mk _ _ _ _ cs _ => cs

def randomNode : NTree M P → Bool
  | .mk _ _ _ _ _ r => r

instance : Inhabited (NTree M P) := ⟨.mk none 0 [] false [] false⟩

/-- A freshly constructed child node (`new Node(this, move, this.mcts)`):
zero visits, empty tally, unexpanded. -/
def fresh (m : M) : NTree M P := .mk (some m) 0 [] false [] false

/-- `this.visits++`. -/
def bumpVisits : NTree M P → NTree M P
  | .mk m v w e cs r => .mk m (v + 1) w e cs r

/-- Replace the child at index `i` (the in-place mutation of a child object
in the source becomes an explicit write-back). -/
def setChild : NTree M P → ℕ → NTree M P → NTree M P
  | .mk m v w e cs r, i, c => .mk m v w e (cs.set i c) r

end NTree

/-- `this.wins[key] ?? 0`: first-match lookup in the tally. -/
def lookupWin {P : Type} [DecidableEq P] (w : List (P × ℕ)) (p : P) : ℕ :=
  match w with
  | [] => 0
  | (q, n) :: rest => if q = p then n else lookupWin rest p

/-- `this.wins[key] = (this.wins[key] ?? 0) + 1`: bump an existing key in
place, or append a new key with count 1. -/
def bumpWin {P : Type} [DecidableEq P] (w : List (P × ℕ)) (p : P) : List (P × ℕ) :=
  match w with
  | [] => [(p, 1)]
  | (q, n) :: rest => if q = p then (q, n + 1) :: rest else (q, n) :: bumpWin rest p

/-- `Object.values(this.wins).reduce((sum, w) => sum + w, 0)`. -/
def totalWins {P : Type} (w : List (P × ℕ)) : ℕ :=
  (w.map Prod.snd).sum

namespace NTree

variable {M P : Type}

/-- Backpropagation step on one node, `src/index.ts` lines 297-302: bump the
winner's tally when there is a winner, otherwise leave the tally alone. -/
def bumpWinOpt [DecidableEq P] : NTree M P → Option P → NTree M P
  | t, none => t
  | .mk m v w e cs r, some p => .mk m v (bumpWin w p) e cs r

end NTree

/-- `Node.getChildren(game)`, `src/index.ts` lines 63-78: lazily build one
child per legal move; a `RandomSelection` result marks the node as a chance
node.  Returns the (possibly newly) expanded node. -/
def expandNode {S M P : Type} (rules : GameRules S M P) (t : NTree M P) (s : S) :
    NTree M P :=
  if t.expanded then t
  else
    match rules.getPossibleMoves s with
    | .decision ms =>
        .mk t.move t.visits t.wins true (ms.map NTree.fresh) t.randomNode
    | .randomSelection ms =>
        .mk t.move t.visits t.wins true (ms.map NTree.fresh) true

/-- Swap two positions of a list (the body of one Fisher–Yates step).  Out of
range indices leave the list unchanged, as in the source's `undefined`
guard. -/
def listSwap {α : Type} (l : List α) (i j : ℕ) : List α :=
  match l.get? i, l.get? j with
  | some a, some b => (l.set i b).set j a
  | _, _ => l

/-- Fisher–Yates loop of `Node.shuffle`, `src/index.ts` lines 107-119:
`i` counts down; each step draws one random number `r` and swaps position
`i` with position `r % (i + 1)`. -/
def fyAux {α : Type} : List α → ℕ → List ℕ → List α × List ℕ
  | l, 0, rs => (l, rs)
  | l, i + 1, rs =>
      let r := rs.headI
      let j := r % (i + 2)
      fyAux (listSwap l (i + 1) j) i rs.tail

/-- `this.shuffle([...children])` (here applied to the index list). -/
def shuffle {α : Type} (l : List α) (rs : List ℕ) : List α × List ℕ :=
  fyAux l (l.length - 1) rs

/-- Insert `x` into a sorted list, after every element not strictly greater:
together with `sortAsc` this is a stable ascending sort, the model of
JavaScript's stable `Array.prototype.sort`. -/
def insertAsc {α : Type} (lt : α → α → Bool) (x : α) : List α → List α
  | [] => [x]
  | y :: ys => if lt x y then x :: y :: ys else y :: insertAsc lt x ys

/-- Stable ascending insertion sort by the strict comparator `lt`. -/
def sortAsc {α : Type} (lt : α → α → Bool) (l : List α) : List α :=
  l.foldl (fun acc x => insertAsc lt x acc) []

/-- The strict-less comparator the engine sorts children with.  In the
source, `MCTS.compareNodes(a, b, game)` returns the floating-point
difference of the two children's UCB1 scores for the current player
(`src/index.ts` lines 261-271); the engine below is parametrised by the
induced strict order `ltNode parent currentPlayer a b`, so every theorem
about the engine holds for the actual UCB1 comparator as an instance. -/
abbrev LtNode (M P : Type) := NTree M P → P → NTree M P → NTree M P → Bool

/-- `Node.nextMove(game)`, `src/index.ts` lines 80-105, returning the index
of the chosen child in the (unshuffled) children list.  `none` models the
thrown `Error` when there are no children.  The children are shuffled
(modelled by shuffling their indices), then for a chance node the last
shuffled element is returned directly; otherwise the shuffled list is stably
sorted ascending by the comparator and the last (maximum) element is
returned. -/
def nextMoveIdx {S M P : Type} (lt : LtNode M P) (rules : GameRules S M P)
    (t : NTree M P) (s : S) (rs : List ℕ) : Option (ℕ × List ℕ) :=
  let t' := expandNode rules t s
  let n := t'.children.length
  if n = 0 then none
  else
    let sh := shuffle (List.range n) rs
    if t'.randomNode then
      match sh.1.getLast? with
      | none => none
      | some idx => some (idx, sh.2)
    else
      let player := rules.getCurrentPlayer s
      let sorted := sortAsc
        (fun i j => lt t' player (t'.children.getD i default) (t'.children.getD j default))
        sh.1
      match sorted.getLast? with
      | none => none
      | some idx => some (idx, sh.2)

/-- The selection/expansion/backpropagation walk of `MCTS.runSimulation`,
`src/index.ts` lines 273-305, from a node whose visit count has already been
incremented by the caller.  Returns the updated subtree, the terminal
winner, and the remaining randomness; `none` means the fuel ran out (the
source's `while` loop would still be running). -/
def simWalk {S M P : Type} [DecidableEq P] (rules : GameRules S M P)
    (lt : LtNode M P) :
    ℕ → NTree M P → S → List ℕ → Option (NTree M P × Option P × List ℕ)
  | 0, _, _, _ => none
  | fuel + 1, t, s, rs =>
      let t1 := expandNode rules t s
      if t1.children.length = 0 then
        let winner := rules.getWinner s
        some (t1.bumpWinOpt winner, winner, rs)
      else
        match nextMoveIdx lt rules t1 s rs with
        | none => none
        | some (idx, rs1) =>
            let child := t1.children.getD idx default
            let s1 := match child.move with
              | some m => rules.performMove s m
              | none => s
            match simWalk rules lt fuel child.bumpVisits s1 rs1 with
            | none => none
            | some (child2, winner, rs2) =>
                some ((t1.setChild idx child2).bumpWinOpt winner, winner, rs2)

/-- The engine state, `class MCTS` of `src/index.ts` lines 145-155: the
caller's game, the configured round count (a JS number, so possibly zero or
negative), and the root node. -/
structure MCTSState (S M P : Type) where
  game : S
  rounds : ℤ
  rootNode : NTree M P

/-- The `MCTS` constructor: `rounds ?? 1000` and a fresh root. -/
def mkMCTS {S M P : Type} (game : S) (rounds : Option ℤ) : MCTSState S M P :=
  { game := game, rounds := rounds.getD 1000,
    rootNode := .mk none 0 [] false [] false }

/-- One call to `MCTS.runSimulation()`: clone the game (pure model: reuse the
value), bump the root's visits, then walk. -/
def runSimulationE {S M P : Type} [DecidableEq P] (rules : GameRules S M P)
    (lt : LtNode M P) (fuel : ℕ) (m : MCTSState S M P) (rs : List ℕ) :
    Option (MCTSState S M P × List ℕ) :=
  match simWalk rules lt fuel m.rootNode.bumpVisits m.game rs with
  | none => none
  | some (root', _, rs') => some ({ m with rootNode := root' }, rs')

/-- `MCTS.runSimulations(count)` / the `for` loop of `selectMove`. -/
def runSimulationsE {S M P : Type} [DecidableEq P] (rules : GameRules S M P)
    (lt : LtNode M P) (fuel : ℕ) :
    ℕ → MCTSState S M P → List ℕ → Option (MCTSState S M P × List ℕ)
  | 0, m, rs => some (m, rs)
  | n + 1, m, rs =>
      match runSimulationE rules lt fuel m rs with
      | none => none
      | some (m', rs') => runSimulationsE rules lt fuel n m' rs'

/-- The best-child scan of `selectMove`, `src/index.ts` lines 167-177:
start from `children[0]` and replace the candidate whenever a child has
strictly more visits. -/
def bestChildLoop {M P : Type} (children : List (NTree M P)) : Option (NTree M P) :=
  match children with
  | [] => none
  | c0 :: _ =>
      some (children.foldl (fun best c => if c.visits > best.visits then c else best) c0)

/-- `MCTS.selectMove()`, `src/index.ts` lines 157-184: run `rounds`
simulations (a non-positive count runs none), expand the root against the
caller's game, and return the move of the most-visited child.  Thrown
`Error`s become `Except.error` with the source's message; the updated engine
state is returned alongside. -/
def selectMoveE {S M P : Type} [DecidableEq P] (rules : GameRules S M P)
    (lt : LtNode M P) (fuel : ℕ) (m : MCTSState S M P) (rs : List ℕ) :
    Option (Except String M × MCTSState S M P) :=
  match runSimulationsE rules lt fuel m.rounds.toNat m rs with
  | none => none
  | some (m1, _) =>
      let root2 := expandNode rules m1.rootNode m1.game
      let m2 : MCTSState S M P := { m1 with rootNode := root2 }
      if root2.children.length = 0 then
        some (.error "No possible moves available", m2)
      else
        match bestChildLoop root2.children with
        | none => some (.error "No children available", m2)
        | some best =>
            match best.move with
            | none => some (.error "Best child has null move", m2)
            | some mv => some (.ok mv, m2)

/-- `MCTS.getBestMove()`, `src/index.ts` lines 219-237: reads the raw
`children` field (no expansion); `null` when the root has not been expanded
or has no children. -/
def getBestMove {S M P : Type} (m : MCTSState S M P) : Option M :=
  if m.rootNode.expanded = false then none
  else
    match bestChildLoop m.rootNode.children with
    | none => none
    | some best => best.move

/-- `MCTS.getMoveStats()`, `src/index.ts` lines 240-259: reads the raw
`children` field (no expansion), keeps children with a move and at least one
visit, computes the current player's win rate (exact rational in place of
the source's float), and sorts by visits descending. -/
def getMoveStats {S M P : Type} [DecidableEq P] (rules : GameRules S M P)
    (m : MCTSState S M P) : List (M × ℕ × List (P × ℕ) × ℚ) :=
  if m.rootNode.expanded = false then []
  else
    let player := rules.getCurrentPlayer m.game
    let entries := m.rootNode.children.filterMap fun c =>
      match c.move with
      | none => none
      | some mv =>
          if c.visits > 0 then
            some (mv, c.visits, c.wins, (lookupWin c.wins player : ℚ) / (c.visits : ℚ))
          else none
    sortAsc (fun a b => decide (b.2.1 < a.2.1)) entries

/-! ### Example games (`src/games.ts`) -/

/-- `SingleCellGame` (`src/games.ts` lines 7-35): one cell, one player (id
`0`); the only legal move is `0` while the cell is empty, claiming it wins.
The state is the cell's content. -/
def singleCellRules : GameRules (Option ℕ) ℕ ℕ where
  getPossibleMoves s := match s with
    | none => .decision [0]
    | some _ => .decision []
  performMove _ _ := some 0
  getCurrentPlayer _ := 0
  getWinner s := s

/-- `TwoCellGame` (`src/games.ts` lines 37-70): two cells, players `0` and
`1` alternate; whoever fills cell `1` is the winner.  The state is the two
cells' contents and the current player. -/
def twoCellRules : GameRules ((Option ℕ × Option ℕ) × ℕ) ℕ ℕ where
  getPossibleMoves s :=
    .decision ((if s.1.1 = none then [0] else []) ++ (if s.1.2 = none then [1] else []))
  performMove s mv :=
    if mv = 0 then ((some s.2, s.1.2), (s.2 + 1) % 2)
    else ((s.1.1, some s.2), (s.2 + 1) % 2)
  getCurrentPlayer s := s.2
  getWinner s := s.1.2

/-- A game with no legal move at all from its (only) position, the
"configuration misuse" input of the error-handling design. -/
def noMovesRules : GameRules Unit ℕ ℕ where
  getPossibleMoves _ := .decision []
  performMove s _ := s
  getCurrentPlayer _ := 0
  getWinner _ := none

/-- A trivial strict-less comparator used to instantiate the engine's
comparator parameter in concrete witness runs. -/
def ltF {M P : Type} : LtNode M P := fun _ _ _ _ => false

/-! ### Tree aggregates and well-formed trees

`treeVisits`/`treeWins` sum a statistic over a whole (sub)tree; they are the
vocabulary in which backpropagation is described.  A tree is well formed when
every unexpanded node has an empty child list — the only states the engine
ever builds (a fresh node starts with `children === null`, and expansion is
what populates the list). -/

mutual

/-- Total visit count of every node of the subtree. -/
def treeVisits {M P : Type} : NTree M P → ℕ
  | .mk _ v _ _ cs _ => v + treeVisitsL cs

/-- Total visit count over a list of subtrees. -/
def treeVisitsL {M P : Type} : List (NTree M P) → ℕ
  | [] => 0
  | c :: cs => treeVisits c + treeVisitsL cs

end

mutual

/-- Total win tally of player `p` over every node of the subtree. -/
def treeWins {M P : Type} [DecidableEq P] : NTree M P → P → ℕ
  | .mk _ _ w _ cs _, p => lookupWin w p + treeWinsL cs p

/-- Total win tally of player `p` over a list of subtrees. -/
def treeWinsL {M P : Type} [DecidableEq P] : List (NTree M P) → P → ℕ
  | [], _ => 0
  | c :: cs, p => treeWins c p + treeWinsL cs p

end

mutual

/-- Well-formedness: an unexpanded node has no children. -/
def wfT {M P : Type} : NTree M P → Bool
  | .mk _ _ _ e cs _ => (e || cs.isEmpty) && wfL cs

/-- Well-formedness of a list of subtrees. -/
def wfL {M P : Type} : List (NTree M P) → Bool
  | [] => true
  | c :: cs => wfT c && wfL cs

end


/-- Sum of the visit counts of a node's direct children (root invariant
 vocabulary). -/
def childVisitSum {M P : Type} (t : NTree M P) : ℕ :=
  (t.children.map NTree.visits).sum

/-- The final selection rule as the specification words it: the first list
element attaining the maximal value of `f`. -/
def firstMaxBy {α : Type} (f : α → ℕ) : List α → Option α
  | [] => none
  | x :: xs =>
      match firstMaxBy f xs with
      | none => some x
      | some y => if f y > f x then some y else some x

/-! ### UCB1 (`Node.getUCB1`, `src/index.ts` lines 41-61)

The floating-point arithmetic of the source is modelled over ℝ.  Because ℝ
carries no executable arithmetic, the function is embedded as its graph: a
`Prop` relating the node (plus its parent's visit count and the queried
player) to the returned value, with `none` standing for `Infinity`. -/

/-- Graph of `Node.getUCB1(player)` as implemented: `Infinity` when the node
is unvisited, `0` at the root (`parentVisits = none` encodes
`this.parent === null`), and otherwise
`score / visits + sqrt(2 * ln(parent.visits) / visits)` where
`score = myWins + 0.5 * draws` and `draws = visits - totalWins`: wins count
1 point, draws 0.5 points, losses 0. -/
def getUCB1Is {M P : Type} [DecidableEq P] (t : NTree M P) (parentVisits : Option ℕ)
    (player : P) (value : Option ℝ) : Prop :=
  if t.visits = 0 then value = none
  else
    match parentVisits with
    | none => value = some 0
    | some pv =>
        value = some
          ((((lookupWin t.wins player : ℝ)
              + 0.5 * ((t.visits : ℝ) - (totalWins t.wins : ℝ))) / (t.visits : ℝ))
            + Real.sqrt (2 * Real.log (pv : ℝ) / (t.visits : ℝ)))

/-- The claimed reference definition of `getUCB1`: plain win rate
`wins_for(player) / visits` — a drawn simulation contributes to `visits`
but adds nothing to any player's score — plus the same exploration term. -/
def getUCB1RefIs {M P : Type} [DecidableEq P] (t : NTree M P) (parentVisits : Option ℕ)
    (player : P) (value : Option ℝ) : Prop :=
  if t.visits = 0 then value = none
  else
    match parentVisits with
    | none => value = some 0
    | some pv =>
        value = some
          (((lookupWin t.wins player : ℝ) / (t.visits : ℝ))
            + Real.sqrt (2 * Real.log (pv : ℝ) / (t.visits : ℝ)))

/-- The amended reference for `getUCB1`: as claimed, except that a drawn
simulation adds half a point (not zero) to every player's score:
`(wins_for(player) + 0.5 * draws) / visits` with
`draws = visits - total wins over all players`. -/
def getUCB1AmendedIs {M P : Type} [DecidableEq P] (t : NTree M P) (parentVisits : Option ℕ)
    (player : P) (value : Option ℝ) : Prop :=
  if t.visits = 0 then value = none
  else
    match parentVisits with
    | none => value = some 0
    | some pv =>
        value = some
          ((((lookupWin t.wins player : ℝ)
              + 0.5 * ((t.visits : ℝ) - (totalWins t.wins : ℝ))) / (t.visits : ℝ))
            + Real.sqrt (2 * Real.log (pv : ℝ) / (t.visits : ℝ)))

/-! ### Concrete states used to exercise the theorems -/

/-- A once-visited node with an empty tally (its one recorded simulation was
a draw). -/
def ucbNode : NTree ℕ ℕ := .mk none 1 [] true [] false

/-- Fresh engine on the single-cell game, one round. -/
def singleCellStart1 : MCTSState (Option ℕ) ℕ ℕ := mkMCTS none (some 1)

/-- The engine state after `selectMove` (one round, empty randomness) on the
single-cell game. -/
def singleCellRun1 : MCTSState (Option ℕ) ℕ ℕ :=
  ⟨none, 1, .mk none 1 [(0, 1)] true [.mk (some 0) 1 [(0, 1)] true [] false] false⟩

/-- The engine state after two simulations (empty randomness) on the
single-cell game. -/
def singleCellRun2 : MCTSState (Option ℕ) ℕ ℕ :=
  ⟨none, 1, .mk none 2 [(0, 2)] true [.mk (some 0) 2 [(0, 2)] true [] false] false⟩

/-- The engine state after `selectMove` with zero rounds on the two-cell
game: root expanded, both children untouched. -/
def twoCellExpanded : MCTSState ((Option ℕ × Option ℕ) × ℕ) ℕ ℕ :=
  ⟨((none, none), 0), 0, .mk none 0 [] true [.fresh 0, .fresh 1] false⟩

/-- Fresh engine on the two-cell game (no simulation run yet). -/
def twoCellFresh : MCTSState ((Option ℕ × Option ℕ) × ℕ) ℕ ℕ :=
  mkMCTS ((none, none), 0) (some 5)

/-- An expanded chance node with two fresh children. -/
def chanceT1 : NTree ℕ ℕ := .mk none 0 [] true [.fresh 0, .fresh 1] true

/-- The same chance node shape with different visit counts and win tallies
on itself and its children. -/
def chanceT2 : NTree ℕ ℕ :=
  .mk none 7 [(0, 3)] true
    [.mk (some 0) 5 [(1, 2)] false [] false, .mk (some 1) 9 [] false [] false] true

/-- Fresh engine on the no-move game. -/
def noMovesStart : MCTSState Unit ℕ ℕ := mkMCTS () (some 5)

/-- The engine state after one simulation on the no-move game: the root is
terminal and the terminal position is a draw, so its visit is counted but no
tally is touched. -/
def noMovesRun1 : MCTSState Unit ℕ ℕ := ⟨(), 5, .mk none 1 [] true [] false⟩

/-- One simulation's effect on the tree, node by node along the traversal
path.  `WalkPath rules t s t' w` says: starting at node `t` with game
position `s` (the node's own visit bump is the caller's), the walk reached a
terminal position whose winner — `rules.getWinner` there — is `w`, and `t'`
is `t` updated exactly as `runSimulation` does during backpropagation:

* at the terminal node (`terminal`): the node is expanded (childless) and
  receives `bumpWinOpt w` — by `bumpWin`, one added to exactly the winner's
  tally when `w = some p`, and no tally touched when `w = none` (draw);
* at an interior node (`step`): the node is expanded, exactly one child (at
  index `idx`) receives its visit bump and, recursively, the same treatment;
  the child list is written back with `setChild idx`, leaving every other
  child untouched, and the node itself receives the same `bumpWinOpt w`.

So the winner credited along the path is the terminal position's winner,
every path node (root through terminal, inclusive) gets that one tally
increment and no other, a draw increments nobody, and the visit counts
bumped are exactly those of the descended-to path nodes. -/
inductive WalkPath {S M P : Type} [DecidableEq P] (rules : GameRules S M P) :
    NTree M P → S → NTree M P → Option P → Prop where
  | terminal (t : NTree M P) (s : S)
      (hleaf : (expandNode rules t s).children = []) :
      WalkPath rules t s
        ((expandNode rules t s).bumpWinOpt (rules.getWinner s)) (rules.getWinner s)
  | step (t : NTree M P) (s : S) (idx : ℕ) (child child' : NTree M P) (w : Option P)
      (hchild : (expandNode rules t s).children.get? idx = some child)
      (hrec : WalkPath rules child.bumpVisits
        (match child.move with
          | some m => rules.performMove s m
          | none => s) child' w) :
      WalkPath rules t s (((expandNode rules t s).setChild idx child').bumpWinOpt w) w

/-! ### Basic simp lemmas for the node accessors and updates -/

section Accessors

variable {M P : Type}

@[simp] lemma NTree.move_mk (m : Option M) (v : ℕ) (w : List (P × ℕ)) (e : Bool)
    (cs : List (NTree M P)) (r : Bool) : (NTree.mk m v w e cs r).move = m := rfl

@[simp] lemma NTree.visits_mk (m : Option M) (v : ℕ) (w : List (P × ℕ)) (e : Bool)
    (cs : List (NTree M P)) (r : Bool) : (NTree.mk m v w e cs r).visits = v := rfl

@[simp] lemma NTree.wins_mk (m : Option M) (v : ℕ) (w : List (P × ℕ)) (e : Bool)
    (cs : List (NTree M P)) (r : Bool) : (NTree.mk m v w e cs r).wins = w := rfl

@[simp] lemma NTree.expanded_mk (m : Option M) (v : ℕ) (w : List (P × ℕ)) (e : Bool)
    (cs : List (NTree M P)) (r : Bool) : (NTree.mk m v w e cs r).expanded = e := rfl

@[simp] lemma NTree.children_mk (m : Option M) (v : ℕ) (w : List (P × ℕ)) (e : Bool)
    (cs : List (NTree M P)) (r : Bool) : (NTree.mk m v w e cs r).children = cs := rfl

@[simp] lemma NTree.randomNode_mk (m : Option M) (v : ℕ) (w : List (P × ℕ)) (e : Bool)
    (cs : List (NTree M P)) (r : Bool) : (NTree.mk m v w e cs r).randomNode = r := rfl

@[simp] lemma NTree.visits_bumpVisits (t : NTree M P) :
    t.bumpVisits.visits = t.visits + 1 := by cases t <;> rfl

@[simp] lemma NTree.move_bumpVisits (t : NTree M P) :
    t.bumpVisits.move = t.move := by cases t <;> rfl

@[simp] lemma NTree.wins_bumpVisits (t : NTree M P) :
    t.bumpVisits.wins = t.wins := by cases t <;> rfl

@[simp] lemma NTree.expanded_bumpVisits (t : NTree M P) :
    t.bumpVisits.expanded = t.expanded := by cases t <;> rfl

@[simp] lemma NTree.children_bumpVisits (t : NTree M P) :
    t.bumpVisits.children = t.children := by cases t <;> rfl

@[simp] lemma NTree.randomNode_bumpVisits (t : NTree M P) :
    t.bumpVisits.randomNode = t.randomNode := by cases t <;> rfl

variable [DecidableEq P]

@[simp] lemma NTree.visits_bumpWinOpt (t : NTree M P) (w : Option P) :
    (t.bumpWinOpt w).visits = t.visits := by cases t <;> cases w <;> rfl

@[simp] lemma NTree.move_bumpWinOpt (t : NTree M P) (w : Option P) :
    (t.bumpWinOpt w).move = t.move := by cases t <;> cases w <;> rfl

@[simp] lemma NTree.expanded_bumpWinOpt (t : NTree M P) (w : Option P) :
    (t.bumpWinOpt w).expanded = t.expanded := by cases t <;> cases w <;> rfl

@[simp] lemma NTree.children_bumpWinOpt (t : NTree M P) (w : Option P) :
    (t.bumpWinOpt w).children = t.children := by cases t <;> cases w <;> rfl

@[simp] lemma NTree.randomNode_bumpWinOpt (t : NTree M P) (w : Option P) :
    (t.bumpWinOpt w).randomNode = t.randomNode := by cases t <;> cases w <;> rfl

@[simp] lemma NTree.visits_setChild (t : NTree M P) (i : ℕ) (c : NTree M P) :
    (t.setChild i c).visits = t.visits := by cases t <;> rfl

@[simp] lemma NTree.move_setChild (t : NTree M P) (i : ℕ) (c : NTree M P) :
    (t.setChild i c).move = t.move := by cases t <;> rfl

@[simp] lemma NTree.expanded_setChild (t : NTree M P) (i : ℕ) (c : NTree M P) :
    (t.setChild i c).expanded = t.expanded := by cases t <;> rfl

@[simp] lemma NTree.children_setChild (t : NTree M P) (i : ℕ) (c : NTree M P) :
    (t.setChild i c).children = t.children.set i c := by cases t <;> rfl

@[simp] lemma NTree.visits_fresh (m : M) : (NTree.fresh (P := P) m).visits = 0 := rfl

@[simp] lemma NTree.move_fresh (m : M) : (NTree.fresh (P := P) m).move = some m := rfl

end Accessors

section ExpandLemmas

variable {S M P : Type}

/-- Expansion marks the node expanded (both branches set the flag; a node
already expanded keeps it). -/
@[simp] lemma expanded_expandNode (rules : GameRules S M P) (t : NTree M P) (s : S) :
    (expandNode rules t s).expanded = true := by
  unfold expandNode
  split
  · assumption
  · split <;> rfl

/-- An already-expanded node is returned unchanged (the `children === null`
guard). -/
lemma expandNode_of_expanded (rules : GameRules S M P) (t : NTree M P) (s : S)
    (h : t.expanded = true) : expandNode rules t s = t := by
  unfold expandNode
  simp [h]

/-- The children produced by expansion: one fresh node per legal move (in
either the decision or the chance branch). -/
lemma children_expandNode_of_not_expanded (rules : GameRules S M P) (t : NTree M P)
    (s : S) (h : t.expanded = false) :
    (expandNode rules t s).children = (rules.getPossibleMoves s).moves.map NTree.fresh := by
  unfold expandNode
  rw [h]
  simp only [Bool.false_eq_true, if_false]
  cases hm : rules.getPossibleMoves s <;> simp [MovesResult.moves]

@[simp] lemma visits_expandNode (rules : GameRules S M P) (t : NTree M P) (s : S) :
    (expandNode rules t s).visits = t.visits := by
  unfold expandNode
  split
  · rfl
  · split <;> simp

@[simp] lemma move_expandNode (rules : GameRules S M P) (t : NTree M P) (s : S) :
    (expandNode rules t s).move = t.move := by
  unfold expandNode
  split
  · rfl
  · split <;> simp

@[simp] lemma wins_expandNode (rules : GameRules S M P) (t : NTree M P) (s : S) :
    (expandNode rules t s).wins = t.wins := by
  unfold expandNode
  split
  · rfl
  · split <;> simp

/-- Expansion commutes with the caller's visit bump (`this.visits++` touches
no field that expansion reads or writes). -/
lemma expandNode_bumpVisits (rules : GameRules S M P) (t : NTree M P) (s : S) :
    expandNode rules t.bumpVisits s = (expandNode rules t s).bumpVisits := by
  unfold expandNode
  cases t with
  | mk m v w e cs r =>
    cases e <;> simp [NTree.bumpVisits] <;> cases rules.getPossibleMoves s <;> rfl

/-- A childless node at a position with no legal moves stays childless
through expansion. -/
lemma expandNode_children_empty {rules : GameRules S M P} {t : NTree M P} {s : S}
    (hmoves : (rules.getPossibleMoves s).moves = []) (hch : t.children = []) :
    (expandNode rules t s).children = [] := by
  by_cases he : t.expanded = true
  · rw [expandNode_of_expanded _ _ _ he]
    exact hch
  · rw [children_expandNode_of_not_expanded _ _ _ (by simpa using he), hmoves]
    rfl

@[simp] lemma mkMCTS_game {M P : Type} (g : S) (r : Option ℤ) :
    (mkMCTS g r : MCTSState S M P).game = g := rfl

@[simp] lemma mkMCTS_rounds {M P : Type} (g : S) (r : Option ℤ) :
    (mkMCTS g r : MCTSState S M P).rounds = r.getD 1000 := rfl

@[simp] lemma mkMCTS_rootNode {M P : Type} (g : S) (r : Option ℤ) :
    (mkMCTS g r : MCTSState S M P).rootNode = .mk none 0 [] false [] false := rfl

/-- The children created by expanding a fresh node all carry zero visits. -/
lemma childVisit_map_fresh {M P : Type} (ms : List M) :
    ((ms.map (NTree.fresh (P := P))).map NTree.visits).sum = 0 := by
  induction ms with
  | nil => rfl
  | cons a as ih => simpa using ih

end ExpandLemmas

/-! ### Shuffle and sort: length and membership facts -/

section ShuffleSort

variable {α : Type}

@[simp] lemma length_listSwap (l : List α) (i j : ℕ) :
    (listSwap l i j).length = l.length := by
  unfold listSwap
  split <;> simp

/-- Membership transfer out of `getLast?`. -/
lemma mem_of_getLast?_eq_some {l : List α} {x : α} (h : l.getLast? = some x) : x ∈ l := by
  obtain ⟨hne, hx⟩ := List.mem_getLast?_eq_getLast h
  exact hx ▸ List.getLast_mem hne

lemma mem_listSwap {x : α} {l : List α} {i j : ℕ} (h : x ∈ listSwap l i j) : x ∈ l := by
  unfold listSwap at h
  rcases ha : l.get? i with _ | a <;> rcases hb : l.get? j with _ | b <;>
      rw [ha, hb] at h <;> try exact h
  rcases List.mem_or_eq_of_mem_set h with h2 | h2
  · rcases List.mem_or_eq_of_mem_set h2 with h3 | h3
    · exact h3
    · exact h3 ▸ List.get?_mem hb
  · exact h2 ▸ List.get?_mem ha

lemma length_fyAux (l : List α) (i : ℕ) (rs : List ℕ) :
    (fyAux l i rs).1.length = l.length := by
  induction i generalizing l rs with
  | zero => rfl
  | succ i ih => rw [fyAux, ih, length_listSwap]

lemma mem_fyAux {x : α} (l : List α) (i : ℕ) (rs : List ℕ)
    (h : x ∈ (fyAux l i rs).1) : x ∈ l := by
  induction i generalizing l rs with
  | zero => exact h
  | succ i ih => exact mem_listSwap (ih _ _ (by rw [fyAux] at h; exact h))

@[simp] lemma length_shuffle (l : List α) (rs : List ℕ) :
    (shuffle l rs).1.length = l.length := length_fyAux l (l.length - 1) rs

lemma mem_shuffle {x : α} {l : List α} {rs : List ℕ} (h : x ∈ (shuffle l rs).1) :
    x ∈ l := mem_fyAux l (l.length - 1) rs h

lemma mem_insertAsc {lt : α → α → Bool} {x y : α} {l : List α}
    (h : x ∈ insertAsc lt y l) : x = y ∨ x ∈ l := by
  induction l with
  | nil => simpa [insertAsc] using h
  | cons z zs ih =>
    rw [insertAsc] at h
    split at h
    · exact List.mem_cons.mp h
    · rcases List.mem_cons.mp h with h2 | h2
      · exact .inr (by simp [h2])
      · rcases ih h2 with h3 | h3
        · exact .inl h3
        · exact .inr (by simp [h3])

lemma mem_sortAsc_aux {lt : α → α → Bool} {x : α} :
    ∀ (l acc : List α), x ∈ l.foldl (fun a y => insertAsc lt y a) acc → x ∈ acc ∨ x ∈ l := by
  intro l
  induction l with
  | nil => intro acc h; exact .inl h
  | cons z zs ih =>
    intro acc h
    rcases ih _ h with h2 | h2
    · rcases mem_insertAsc h2 with h3 | h3
      · exact .inr (by simp [h3])
      · exact .inl h3
    · exact .inr (by simp [h2])

lemma mem_sortAsc {lt : α → α → Bool} {x : α} {l : List α}
    (h : x ∈ sortAsc lt l) : x ∈ l := by
  rcases mem_sortAsc_aux l [] h with h2 | h2
  · simp at h2
  · exact h2

lemma length_insertAsc (lt : α → α → Bool) (y : α) (l : List α) :
    (insertAsc lt y l).length = l.length + 1 := by
  induction l with
  | nil => rfl
  | cons z zs ih =>
    rw [insertAsc]
    split
    · simp
    · simp [ih]

lemma length_sortAsc_aux (lt : α → α → Bool) :
    ∀ (l acc : List α), (l.foldl (fun a y => insertAsc lt y a) acc).length
      = acc.length + l.length := by
  intro l
  induction l with
  | nil => intro acc; simp
  | cons z zs ih =>
    intro acc
    rw [List.foldl_cons, ih, length_insertAsc]
    simp only [List.length_cons]
    omega

@[simp] lemma length_sortAsc (lt : α → α → Bool) (l : List α) :
    (sortAsc lt l).length = l.length := by
  rw [sortAsc, length_sortAsc_aux]
  simp

end ShuffleSort

/-! ### `nextMoveIdx`: a returned index is a valid child index -/

section NextMove

variable {S M P : Type}

lemma nextMoveIdx_lt {lt : LtNode M P} {rules : GameRules S M P} {t : NTree M P}
    {s : S} {rs : List ℕ} {idx : ℕ} {rs' : List ℕ}
    (h : nextMoveIdx lt rules t s rs = some (idx, rs')) :
    idx < (expandNode rules t s).children.length := by
  unfold nextMoveIdx at h
  simp only at h
  split at h
  · exact absurd h (by simp)
  · next hn =>
    split at h
    · -- chance node: last of the shuffled index list
      split at h
      · exact absurd h (by simp)
      · next hlast =>
        have hmem := mem_of_getLast?_eq_some hlast
        have := List.mem_range.mp (mem_shuffle hmem)
        injection h with h1
        injection h1 with h1 h2
        omega
    · -- decision node: last of the sorted shuffled index list
      split at h
      · exact absurd h (by simp)
      · next hlast =>
        have hmem := mem_of_getLast?_eq_some hlast
        have := List.mem_range.mp (mem_shuffle (mem_sortAsc hmem))
        injection h with h1
        injection h1 with h1 h2
        omega

end NextMove

section TreeAggregates

variable {M P : Type}

@[simp] lemma treeVisits_mk (m : Option M) (v : ℕ) (w : List (P × ℕ)) (e : Bool)
    (cs : List (NTree M P)) (r : Bool) :
    treeVisits (.mk m v w e cs r) = v + treeVisitsL cs := by rw [treeVisits]

@[simp] lemma treeVisitsL_nil : treeVisitsL ([] : List (NTree M P)) = 0 := by rw [treeVisitsL]

@[simp] lemma treeVisitsL_cons (c : NTree M P) (cs : List (NTree M P)) :
    treeVisitsL (c :: cs) = treeVisits c + treeVisitsL cs := by rw [treeVisitsL]

@[simp] lemma treeVisits_fresh (m : M) : treeVisits (NTree.fresh (P := P) m) = 0 := by
  rw [NTree.fresh, treeVisits]
  simp

lemma treeVisitsL_map_fresh (ms : List M) :
    treeVisitsL (ms.map (NTree.fresh (P := P))) = 0 := by
  induction ms with
  | nil => simp
  | cons m ms ih => simp [ih]

@[simp] lemma treeVisits_bumpVisits (t : NTree M P) :
    treeVisits t.bumpVisits = treeVisits t + 1 := by
  cases t
  rw [NTree.bumpVisits]
  simp
  omega

lemma treeVisitsL_set {cs : List (NTree M P)} {i : ℕ} {c : NTree M P} (c' : NTree M P)
    (h : cs.get? i = some c) :
    treeVisitsL (cs.set i c') + treeVisits c = treeVisitsL cs + treeVisits c' := by
  induction cs generalizing i with
  | nil => simp at h
  | cons d ds ih =>
    cases i with
    | zero =>
      simp at h
      subst h
      simp [List.set]
      omega
    | succ i =>
      rw [List.get?_cons_succ] at h
      have := ih h
      simp [List.set]
      omega

variable [DecidableEq P]

@[simp] lemma treeVisits_bumpWinOpt (t : NTree M P) (w : Option P) :
    treeVisits (t.bumpWinOpt w) = treeVisits t := by
  cases t
  cases w
  · rfl
  · rw [NTree.bumpWinOpt]
    simp

@[simp] lemma treeWins_mk (m : Option M) (v : ℕ) (w : List (P × ℕ)) (e : Bool)
    (cs : List (NTree M P)) (r : Bool) (p : P) :
    treeWins (.mk m v w e cs r) p = lookupWin w p + treeWinsL cs p := by rw [treeWins]

@[simp] lemma treeWinsL_nil (p : P) : treeWinsL ([] : List (NTree M P)) p = 0 := by
  rw [treeWinsL]

@[simp] lemma treeWinsL_cons (c : NTree M P) (cs : List (NTree M P)) (p : P) :
    treeWinsL (c :: cs) p = treeWins c p + treeWinsL cs p := by rw [treeWinsL]

@[simp] lemma treeWins_fresh (m : M) (p : P) : treeWins (NTree.fresh (P := P) m) p = 0 := by
  rw [NTree.fresh, treeWins]
  simp [lookupWin]

lemma treeWinsL_map_fresh (ms : List M) (p : P) :
    treeWinsL (ms.map (NTree.fresh (P := P))) p = 0 := by
  induction ms with
  | nil => simp
  | cons m ms ih => simp [ih]

@[simp] lemma treeWins_bumpVisits (t : NTree M P) (p : P) :
    treeWins t.bumpVisits p = treeWins t p := by
  cases t
  rw [NTree.bumpVisits]
  simp

/-- The single-node tally update: bumping player `p` adds one exactly to
`p`'s count. -/
lemma lookupWin_bumpWin (w : List (P × ℕ)) (p q : P) :
    lookupWin (bumpWin w p) q = lookupWin w q + (if p = q then 1 else 0) := by
  induction w with
  | nil =>
    by_cases hpq : p = q <;> simp [bumpWin, lookupWin, hpq]
  | cons a rest ih =>
    obtain ⟨b, n⟩ := a
    by_cases hbp : b = p
    · subst hbp
      by_cases hbq : b = q
      · subst hbq
        simp [bumpWin, lookupWin]
      · simp [bumpWin, lookupWin, hbq, if_neg hbq]
    · by_cases hbq : b = q
      · subst hbq
        simp [bumpWin, lookupWin, hbp, ih, Ne.symm hbp]
      · simp [bumpWin, lookupWin, hbp, hbq, ih]

lemma treeWins_bumpWinOpt (t : NTree M P) (w : Option P) (p : P) :
    treeWins (t.bumpWinOpt w) p
      = treeWins t p + (if w = some p then 1 else 0) := by
  cases t
  cases w with
  | none => simp [NTree.bumpWinOpt]
  | some q =>
    rw [NTree.bumpWinOpt]
    simp [lookupWin_bumpWin]
    by_cases hqp : q = p <;> simp [hqp]
    omega

lemma treeWinsL_set {cs : List (NTree M P)} {i : ℕ} {c : NTree M P} (c' : NTree M P)
    (p : P) (h : cs.get? i = some c) :
    treeWinsL (cs.set i c') p + treeWins c p = treeWinsL cs p + treeWins c' p := by
  induction cs generalizing i with
  | nil => simp at h
  | cons d ds ih =>
    cases i with
    | zero =>
      simp at h
      subst h
      simp [List.set]
      omega
    | succ i =>
      rw [List.get?_cons_succ] at h
      have := ih h
      simp [List.set]
      omega

end TreeAggregates

section WellFormed

variable {M P : Type}

@[simp] lemma wfT_mk (m : Option M) (v : ℕ) (w : List (P × ℕ)) (e : Bool)
    (cs : List (NTree M P)) (r : Bool) :
    wfT (.mk m v w e cs r) = ((e || cs.isEmpty) && wfL cs) := by rw [wfT]

@[simp] lemma wfL_nil : wfL ([] : List (NTree M P)) = true := by rw [wfL]

@[simp] lemma wfL_cons (c : NTree M P) (cs : List (NTree M P)) :
    wfL (c :: cs) = (wfT c && wfL cs) := by rw [wfL]

@[simp] lemma wfT_fresh (m : M) : wfT (NTree.fresh (P := P) m) = true := by
  rw [NTree.fresh]
  simp

lemma wfL_map_fresh (ms : List M) : wfL (ms.map (NTree.fresh (P := P))) = true := by
  induction ms with
  | nil => simp
  | cons m ms ih => simp [ih]

lemma wfT_children_empty {t : NTree M P} (hwf : wfT t = true)
    (h : t.expanded = false) : t.children = [] := by
  cases t
  simp at hwf h ⊢
  subst h
  have := hwf.1
  simpa [List.isEmpty_iff] using this

lemma wfL_mem {cs : List (NTree M P)} {c : NTree M P} (hwf : wfL cs = true)
    (hmem : c ∈ cs) : wfT c = true := by
  induction cs with
  | nil => simp at hmem
  | cons d ds ih =>
    simp at hwf
    rcases List.mem_cons.mp hmem with h | h
    · exact h ▸ hwf.1
    · exact ih hwf.2 h

lemma wfT_mem_children {t : NTree M P} {c : NTree M P} (hwf : wfT t = true)
    (hmem : c ∈ t.children) : wfT c = true := by
  cases t
  simp at hwf
  exact wfL_mem hwf.2 hmem

lemma wfT_bumpVisits {t : NTree M P} (hwf : wfT t = true) :
    wfT t.bumpVisits = true := by
  cases t
  rw [NTree.bumpVisits]
  simpa using hwf

lemma wfL_set {cs : List (NTree M P)} {i : ℕ} {c' : NTree M P}
    (hwf : wfL cs = true) (hc' : wfT c' = true) : wfL (cs.set i c') = true := by
  induction cs generalizing i with
  | nil => simp [List.set]
  | cons d ds ih =>
    cases i with
    | zero => simp at hwf; simp [List.set, hc', hwf.2]
    | succ i =>
      simp at hwf
      simp [List.set, hwf.1, ih hwf.2]

variable {S : Type}

lemma treeVisits_expandNode (rules : GameRules S M P) {t : NTree M P} (s : S)
    (hwf : wfT t = true) : treeVisits (expandNode rules t s) = treeVisits t := by
  unfold expandNode
  split
  · rfl
  · next he =>
    have hch := wfT_children_empty hwf (by simpa using he)
    cases t
    simp at hch
    subst hch
    cases rules.getPossibleMoves s <;> simp [treeVisitsL_map_fresh]

lemma treeWins_expandNode [DecidableEq P] (rules : GameRules S M P) {t : NTree M P}
    (s : S) (p : P) (hwf : wfT t = true) :
    treeWins (expandNode rules t s) p = treeWins t p := by
  unfold expandNode
  split
  · rfl
  · next he =>
    have hch := wfT_children_empty hwf (by simpa using he)
    cases t
    simp at hch
    subst hch
    cases rules.getPossibleMoves s <;> simp [treeWinsL_map_fresh]

lemma wfT_expandNode (rules : GameRules S M P) {t : NTree M P} (s : S)
    (hwf : wfT t = true) : wfT (expandNode rules t s) = true := by
  unfold expandNode
  split
  · exact hwf
  · cases t
    cases rules.getPossibleMoves s <;> simp [wfL_map_fresh]

lemma wfT_setChild {t : NTree M P} {i : ℕ} {c' : NTree M P}
    (hwf : wfT t = true) (hexp : t.expanded = true) (hc' : wfT c' = true) :
    wfT (t.setChild i c') = true := by
  cases t
  simp at hwf hexp
  subst hexp
  simp [NTree.setChild, wfL_set hwf.2 hc']

lemma wfT_bumpWinOpt [DecidableEq P] {t : NTree M P} (w : Option P)
    (hwf : wfT t = true) : wfT (t.bumpWinOpt w) = true := by
  cases t
  cases w
  · exact hwf
  · rw [NTree.bumpWinOpt]
    simpa using hwf

end WellFormed

/-! ### Structure of a completed simulation walk -/

section SimWalkLemmas

variable {S M P : Type} [DecidableEq P] {rules : GameRules S M P} {lt : LtNode M P}

/-- Helper: `getD` agrees with `get?` at an in-bounds index. -/
lemma get?_eq_some_getD {β : Type} {l : List β} {i : ℕ} (h : i < l.length) (d : β) :
    l.get? i = some (l.getD i d) := by
  rw [List.getD_eq_getElem?_getD, List.get?_eq_getElem?]
  cases hg : l[i]? with
  | none => exact absurd (List.getElem?_eq_none_iff.mp hg) (by omega)
  | some x => rfl

/-- Helper: writing back the value already at an index is the identity. -/
lemma set_get?_self {β : Type} : ∀ {l : List β} {i : ℕ} {a : β},
    l.get? i = some a → l.set i a = l
  | [], i, a, h => by simp at h
  | b :: bs, 0, a, h => by
      simp at h
      simp [List.set, h]
  | b :: bs, i + 1, a, h => by
      rw [List.get?_cons_succ] at h
      simp [List.set, set_get?_self h]

/-- Inversion principle for one step of `simWalk`: a successful walk either
stopped at a terminal node (no children after expansion) and credited the
winner there, or selected a child index, recursed, wrote the updated child
back and credited the winner on this node. -/
lemma simWalk_succ_inv {fuel : ℕ} {t : NTree M P} {s : S} {rs : List ℕ}
    {out : NTree M P × Option P × List ℕ}
    (h : simWalk rules lt (fuel + 1) t s rs = some out) :
    ((expandNode rules t s).children.length = 0 ∧
      out = ((expandNode rules t s).bumpWinOpt (rules.getWinner s),
             rules.getWinner s, rs))
    ∨ ∃ idx rs1 child2 w rs2,
        (expandNode rules t s).children.length ≠ 0 ∧
        nextMoveIdx lt rules (expandNode rules t s) s rs = some (idx, rs1) ∧
        simWalk rules lt fuel
          ((expandNode rules t s).children.getD idx default).bumpVisits
          (match ((expandNode rules t s).children.getD idx default).move with
            | some m => rules.performMove s m
            | none => s) rs1 = some (child2, w, rs2) ∧
        out = (((expandNode rules t s).setChild idx child2).bumpWinOpt w, w, rs2) := by
  rw [simWalk] at h
  simp only at h
  split at h
  · exact .inl ⟨by assumption, (Option.some.inj h).symm⟩
  · right
    split at h
    · exact absurd h (by simp)
    · next idx rs1 hnmi =>
      split at h
      · exact absurd h (by simp)
      · next child2 w rs2 hsw =>
        exact ⟨idx, rs1, child2, w, rs2, by assumption, hnmi, hsw,
          (Option.some.inj h).symm⟩

/-- A completed walk preserves the entry node's own visit count, move,
child count, the children's moves, and the chance flag, and leaves the node
expanded: only statistics along the walked path change. -/
lemma simWalk_some_shape {fuel : ℕ} {t : NTree M P} {s : S} {rs : List ℕ}
    {t' : NTree M P} {w : Option P} {rs' : List ℕ}
    (h : simWalk rules lt fuel t s rs = some (t', w, rs')) :
    t'.visits = t.visits ∧ t'.move = t.move ∧ t'.expanded = true ∧
    t'.children.length = (expandNode rules t s).children.length ∧
    t'.children.map NTree.move = (expandNode rules t s).children.map NTree.move := by
  induction fuel generalizing t s rs t' w rs' with
  | zero => exact absurd h (by rw [simWalk]; simp)
  | succ fuel ih =>
    rcases simWalk_succ_inv h with ⟨hlen, hout⟩ |
        ⟨idx, rs1, child2, w2, rs2, hlen, hnmi, hsw, hout⟩
    · injection hout with h1 h23
      injection h23 with h2 h3
      subst h1
      refine ⟨by simp, by simp, by simp, by simp, by simp⟩
    · injection hout with h1 h23
      injection h23 with h2 h3
      subst h1
      have hexp1 : expandNode rules (expandNode rules t s) s = expandNode rules t s :=
        expandNode_of_expanded _ _ _ (expanded_expandNode ..)
      have hidx : idx < (expandNode rules t s).children.length := by
        have := nextMoveIdx_lt hnmi
        rwa [hexp1] at this
      have hget : (expandNode rules t s).children.get? idx
          = some ((expandNode rules t s).children.getD idx default) :=
        get?_eq_some_getD hidx default
      have hmv : child2.move = ((expandNode rules t s).children.getD idx default).move := by
        have := (ih hsw).2.1
        simpa using this
      refine ⟨by simp, by simp, by simp, by simp, ?_⟩
      simp only [NTree.children_bumpWinOpt, NTree.children_setChild, List.map_set, hmv]
      apply set_get?_self
      rw [List.get?_map, hget]
      rfl

end SimWalkLemmas

/-! ### Backpropagation: exactly the walked path is credited -/

section Backprop

variable {S M P : Type} [DecidableEq P] {rules : GameRules S M P} {lt : LtNode M P}

lemma treeVisits_eq {M : Type} (t : NTree M P) :
    treeVisits t = t.visits + treeVisitsL t.children := by
  cases t
  simp

lemma treeWins_eq {M : Type} (t : NTree M P) (p : P) :
    treeWins t p = lookupWin t.wins p + treeWinsL t.children p := by
  cases t
  simp

lemma treeVisits_setChild {M : Type} (t : NTree M P) (i : ℕ) (c : NTree M P) :
    treeVisits (t.setChild i c) = t.visits + treeVisitsL (t.children.set i c) := by
  cases t
  rw [NTree.setChild]
  simp

lemma treeWins_setChild {M : Type} (t : NTree M P) (i : ℕ) (c : NTree M P) (p : P) :
    treeWins (t.setChild i c) p = lookupWin t.wins p + treeWinsL (t.children.set i c) p := by
  cases t
  rw [NTree.setChild]
  simp

/-- Every completed `simWalk` is a `WalkPath`: its tree update is exactly
the per-node path update, with the reported player `w` being the winner of
the terminal position reached. -/
lemma simWalk_walkPath {fuel : ℕ} {t : NTree M P} {s : S} {rs : List ℕ}
    {t' : NTree M P} {w : Option P} {rs' : List ℕ}
    (h : simWalk rules lt fuel t s rs = some (t', w, rs')) :
    WalkPath rules t s t' w := by
  induction fuel generalizing t s rs t' w rs' with
  | zero => exact absurd h (by rw [simWalk]; simp)
  | succ fuel ih =>
    rcases simWalk_succ_inv h with ⟨hlen, hout⟩ |
        ⟨idx, rs1, child2, w2, rs2, hlen, hnmi, hsw, hout⟩
    · injection hout with h1 h23
      injection h23 with h2 h3
      subst h1
      subst h2
      exact WalkPath.terminal t s (List.length_eq_zero.mp hlen)
    · injection hout with h1 h23
      injection h23 with h2 h3
      subst h1
      subst h2
      have hexp1 : expandNode rules (expandNode rules t s) s = expandNode rules t s :=
        expandNode_of_expanded _ _ _ (expanded_expandNode ..)
      have hidx : idx < (expandNode rules t s).children.length := by
        have := nextMoveIdx_lt hnmi
        rwa [hexp1] at this
      have hget : (expandNode rules t s).children.get? idx
          = some ((expandNode rules t s).children.getD idx default) :=
        get?_eq_some_getD hidx default
      exact WalkPath.step t s idx _ child2 w hget (ih hsw)

/-- A completed walk increments total visits by the number of descents `k`
and, when a winner `w = some p` was found at the terminal position,
increments `p`'s total tally once per path node (the `k` descended-to nodes
plus the entry node) while every other player's total tally is unchanged;
a draw (`w = none`) changes no tally at all. -/
lemma simWalk_backprop {fuel : ℕ} {t : NTree M P} {s : S} {rs : List ℕ}
    {t' : NTree M P} {w : Option P} {rs' : List ℕ}
    (hwf : wfT t = true)
    (h : simWalk rules lt fuel t s rs = some (t', w, rs')) :
    ∃ k, treeVisits t' = treeVisits t + k ∧
      ∀ p, treeWins t' p = treeWins t p + (if w = some p then k + 1 else 0) := by
  induction fuel generalizing t s rs t' w rs' with
  | zero => exact absurd h (by rw [simWalk]; simp)
  | succ fuel ih =>
    rcases simWalk_succ_inv h with ⟨hlen, hout⟩ |
        ⟨idx, rs1, child2, w2, rs2, hlen, hnmi, hsw, hout⟩
    · injection hout with h1 h23
      injection h23 with h2 h3
      subst h1
      subst h2
      refine ⟨0, ?_, fun p => ?_⟩
      · simp [treeVisits_expandNode rules s hwf]
      · rw [treeWins_bumpWinOpt, treeWins_expandNode rules s p hwf]
    · injection hout with h1 h23
      injection h23 with h2 h3
      subst h1
      subst h2
      have hexp1 : expandNode rules (expandNode rules t s) s = expandNode rules t s :=
        expandNode_of_expanded _ _ _ (expanded_expandNode ..)
      have hidx : idx < (expandNode rules t s).children.length := by
        have := nextMoveIdx_lt hnmi
        rwa [hexp1] at this
      have hget : (expandNode rules t s).children.get? idx
          = some ((expandNode rules t s).children.getD idx default) :=
        get?_eq_some_getD hidx default
      have hwfE : wfT (expandNode rules t s) = true := wfT_expandNode rules s hwf
      have hwfc : wfT ((expandNode rules t s).children.getD idx default) = true :=
        wfT_mem_children hwfE (List.get?_mem hget)
      obtain ⟨k, hkv, hkw⟩ := ih (wfT_bumpVisits hwfc) hsw
      rw [treeVisits_bumpVisits] at hkv
      refine ⟨k + 1, ?_, fun p => ?_⟩
      · rw [treeVisits_bumpWinOpt, treeVisits_setChild]
        have hset := treeVisitsL_set child2 hget
        have hE := treeVisits_expandNode rules s hwf
        have hEeq := treeVisits_eq (expandNode rules t s)
        omega
      · rw [treeWins_bumpWinOpt, treeWins_setChild]
        have hset := treeWinsL_set child2 p hget
        have hE := treeWins_expandNode rules s p hwf
        have hEeq := treeWins_eq (expandNode rules t s) p
        have hkwp := hkw p
        rw [treeWins_bumpVisits] at hkwp
        by_cases hw : w = some p <;>
            simp only [hw, eq_self_iff_true, if_true, if_false] at hkwp ⊢ <;>
          omega

end Backprop

/-! ### Per-simulation statistics at the root -/


section RootStats

variable {S M P : Type} [DecidableEq P] {rules : GameRules S M P} {lt : LtNode M P}

lemma sum_map_set {β : Type} (f : β → ℕ) : ∀ {l : List β} {i : ℕ} {c : β} (c' : β),
    l.get? i = some c → ((l.set i c').map f).sum + f c = (l.map f).sum + f c'
  | [], i, c, c', h => by simp at h
  | b :: bs, 0, c, c', h => by
      simp at h
      subst h
      simp only [List.set, List.map_cons, List.sum_cons]
      omega
  | b :: bs, i + 1, c, c', h => by
      rw [List.get?_cons_succ] at h
      have := sum_map_set f c' h
      simp only [List.set, List.map_cons, List.sum_cons]
      omega

/-- One completed simulation: the caller's game and round count are
untouched, the root's visit count goes up by one, the root ends expanded
with the same children (same moves, same order) as its first expansion, and
the direct children's visit sum also goes up by exactly one (the one child
the walk descended into). -/
lemma runSimulationE_stats {fuel : ℕ} {m : MCTSState S M P} {rs : List ℕ}
    {m' : MCTSState S M P} {rs' : List ℕ}
    (hne : (expandNode rules m.rootNode m.game).children ≠ [])
    (h : runSimulationE rules lt fuel m rs = some (m', rs')) :
    m'.game = m.game ∧ m'.rounds = m.rounds ∧
    m'.rootNode.visits = m.rootNode.visits + 1 ∧
    m'.rootNode.expanded = true ∧
    m'.rootNode.children.length = (expandNode rules m.rootNode m.game).children.length ∧
    m'.rootNode.children.map NTree.move
      = (expandNode rules m.rootNode m.game).children.map NTree.move ∧
    childVisitSum m'.rootNode = childVisitSum (expandNode rules m.rootNode m.game) + 1 := by
  unfold runSimulationE at h
  split at h
  · exact absurd h (by simp)
  · next root' w0 rs0 hsw =>
    injection h with h1
    injection h1 with ha hb
    subst ha
    obtain ⟨hv, hmvt, hexp, hlen, hmap⟩ := simWalk_some_shape hsw
    rw [expandNode_bumpVisits] at hlen hmap
    refine ⟨rfl, rfl, by simpa using hv, hexp, by simpa using hlen, by simpa using hmap, ?_⟩
    -- the child-visit sum: one unfold of the walk
    cases fuel with
    | zero => exact absurd hsw (by rw [simWalk]; simp)
    | succ fuel =>
      rcases simWalk_succ_inv hsw with ⟨hlen0, hout⟩ |
          ⟨idx, rs1, child2, w2, rs2, hlen1, hnmi, hsw2, hout⟩
      · rw [expandNode_bumpVisits] at hlen0
        simp only [NTree.children_bumpVisits] at hlen0
        exact absurd (List.length_eq_zero.mp hlen0) hne
      · injection hout with h1 h23
        subst h1
        have hexp1 : expandNode rules (expandNode rules m.rootNode.bumpVisits m.game) m.game
            = expandNode rules m.rootNode.bumpVisits m.game :=
          expandNode_of_expanded _ _ _ (expanded_expandNode ..)
        have hidx : idx < (expandNode rules m.rootNode.bumpVisits m.game).children.length := by
          have := nextMoveIdx_lt hnmi
          rwa [hexp1] at this
        have hget := get?_eq_some_getD hidx
          (default : NTree M P)
        have hcv : child2.visits
            = ((expandNode rules m.rootNode.bumpVisits m.game).children.getD idx
                default).visits + 1 := by
          have := (simWalk_some_shape hsw2).1
          simpa using this
        have hsum := sum_map_set NTree.visits child2 hget
        rw [hcv] at hsum
        rw [expandNode_bumpVisits] at hsum hget hidx
        simp only [NTree.children_bumpVisits] at hsum hget hidx
        unfold childVisitSum
        simp only [NTree.children_bumpWinOpt, NTree.children_setChild]
        rw [expandNode_bumpVisits]
        simp only [NTree.children_bumpVisits]
        omega

end RootStats

section RunLoop

variable {S M P : Type} [DecidableEq P] {rules : GameRules S M P} {lt : LtNode M P}

/-- Accumulated statistics over `n` completed simulations, starting from any
engine state whose root (once expanded) has at least one child. -/
lemma runSimulationsE_stats {fuel : ℕ} : ∀ {n : ℕ} {m : MCTSState S M P} {rs : List ℕ}
    {m' : MCTSState S M P} {rs' : List ℕ},
    (expandNode rules m.rootNode m.game).children ≠ [] →
    runSimulationsE rules lt fuel n m rs = some (m', rs') →
    m'.game = m.game ∧ m'.rounds = m.rounds ∧
    m'.rootNode.visits = m.rootNode.visits + n ∧
    (n = 0 → m' = m) ∧
    (1 ≤ n →
      m'.rootNode.expanded = true ∧
      m'.rootNode.children.length = (expandNode rules m.rootNode m.game).children.length ∧
      m'.rootNode.children.map NTree.move
        = (expandNode rules m.rootNode m.game).children.map NTree.move ∧
      childVisitSum m'.rootNode = childVisitSum (expandNode rules m.rootNode m.game) + n) := by
  intro n
  induction n with
  | zero =>
    intro m rs m' rs' hne h
    rw [runSimulationsE] at h
    injection h with h1
    injection h1 with ha hb
    subst ha
    exact ⟨rfl, rfl, by omega, fun _ => rfl, fun hk => absurd hk (by omega)⟩
  | succ n ih =>
    intro m rs m' rs' hne h
    rw [runSimulationsE] at h
    split at h
    · exact absurd h (by simp)
    · next m1 rs1 hsim =>
      obtain ⟨hg1, hr1, hv1, hexp1, hlen1, hmap1, hsum1⟩ := runSimulationE_stats hne hsim
      have hroot1 : expandNode rules m1.rootNode m1.game = m1.rootNode :=
        expandNode_of_expanded _ _ _ hexp1
      have hne1 : (expandNode rules m1.rootNode m1.game).children ≠ [] := by
        rw [hroot1]
        intro hnil
        rw [hnil] at hlen1
        exact hne (List.length_eq_zero.mp (by simpa using hlen1.symm))
      obtain ⟨hg, hr, hv, hzero, hpos⟩ := ih hne1 h
      refine ⟨hg.trans hg1, hr.trans hr1, by omega, fun hk => absurd hk (by omega),
        fun _ => ?_⟩
      rcases Nat.eq_zero_or_pos n with hn0 | hn1
      · subst hn0
        rw [hzero rfl]
        exact ⟨hexp1, hlen1, hmap1, by omega⟩
      · obtain ⟨hexp, hlen, hmap, hsum⟩ := hpos hn1
        rw [hroot1] at hlen hmap hsum
        refine ⟨hexp, hlen.trans hlen1, hmap.trans hmap1, ?_⟩
        omega

/-- A terminal entry node: when expansion yields no children the walk stops
immediately, crediting the winner of the current position. -/
lemma simWalk_terminal {fuel : ℕ} (hfuel : 1 ≤ fuel) {t : NTree M P} {s : S}
    {rs : List ℕ} (h : (expandNode rules t s).children = []) :
    simWalk rules lt fuel t s rs
      = some ((expandNode rules t s).bumpWinOpt (rules.getWinner s),
              rules.getWinner s, rs) := by
  cases fuel with
  | zero => omega
  | succ fuel =>
    rw [simWalk]
    simp [h]

/-- With no legal move at the (never-changing) current position, every
number of simulations completes, leaving the root childless. -/
lemma runSimulationsE_noMoves {fuel : ℕ} (hfuel : 1 ≤ fuel) :
    ∀ (n : ℕ) (m : MCTSState S M P) (rs : List ℕ),
    (rules.getPossibleMoves m.game).moves = [] →
    m.rootNode.children = [] →
    ∃ m' rs', runSimulationsE rules lt fuel n m rs = some (m', rs') ∧
      m'.game = m.game ∧ m'.rounds = m.rounds ∧ m'.rootNode.children = [] := by
  intro n
  induction n with
  | zero =>
    intro m rs hmoves hch
    exact ⟨m, rs, by rw [runSimulationsE], rfl, rfl, hch⟩
  | succ n ih =>
    intro m rs hmoves hch
    have ht1 : (expandNode rules m.rootNode.bumpVisits m.game).children = [] := by
      rw [expandNode_bumpVisits]
      simp only [NTree.children_bumpVisits]
      by_cases he : m.rootNode.expanded = true
      · rw [expandNode_of_expanded _ _ _ he]
        exact hch
      · rw [children_expandNode_of_not_expanded _ _ _ (by simpa using he), hmoves]
        rfl
    have hsim : runSimulationE rules lt fuel m rs
        = some (MCTSState.mk m.game m.rounds
            ((expandNode rules m.rootNode.bumpVisits m.game).bumpWinOpt
              (rules.getWinner m.game)), rs) := by
      unfold runSimulationE
      rw [simWalk_terminal hfuel ht1]
    have hchNew : ((expandNode rules m.rootNode.bumpVisits m.game).bumpWinOpt
        (rules.getWinner m.game)).children = [] := by
      rw [NTree.children_bumpWinOpt]
      exact ht1
    obtain ⟨m', rs', hrun, hg, hr, hch'⟩ :=
      @ih (MCTSState.mk m.game m.rounds
        ((expandNode rules m.rootNode.bumpVisits m.game).bumpWinOpt
          (rules.getWinner m.game))) rs hmoves hchNew
    refine ⟨m', rs', ?_, hg, hr, hch'⟩
    rw [runSimulationsE, hsim]
    exact hrun

/-- `runSimulationE` never touches the caller's game or the round count. -/
lemma runSimulationE_frame {fuel : ℕ} {m : MCTSState S M P} {rs : List ℕ}
    {m' : MCTSState S M P} {rs' : List ℕ}
    (h : runSimulationE rules lt fuel m rs = some (m', rs')) :
    m'.game = m.game ∧ m'.rounds = m.rounds := by
  unfold runSimulationE at h
  split at h
  · exact absurd h (by simp)
  · injection h with h1
    injection h1 with ha hb
    subst ha
    exact ⟨rfl, rfl⟩

/-- `runSimulationsE` never touches the caller's game or the round count. -/
lemma runSimulationsE_frame {fuel : ℕ} : ∀ {n : ℕ} {m : MCTSState S M P} {rs : List ℕ}
    {m' : MCTSState S M P} {rs' : List ℕ},
    runSimulationsE rules lt fuel n m rs = some (m', rs') →
    m'.game = m.game ∧ m'.rounds = m.rounds := by
  intro n
  induction n with
  | zero =>
    intro m rs m' rs' h
    rw [runSimulationsE] at h
    injection h with h1
    injection h1 with ha hb
    subst ha
    exact ⟨rfl, rfl⟩
  | succ n ih =>
    intro m rs m' rs' h
    rw [runSimulationsE] at h
    split at h
    · exact absurd h (by simp)
    · next m1 rs1 hsim =>
      obtain ⟨hg1, hr1⟩ := runSimulationE_frame hsim
      obtain ⟨hg, hr⟩ := ih h
      exact ⟨hg.trans hg1, hr.trans hr1⟩

end RunLoop

/-! ### The best-child scan and the robust-child rule -/


section BestChild

variable {α : Type} {M P : Type}

lemma firstMaxBy_ne_none {f : α → ℕ} {x : α} {xs : List α} :
    firstMaxBy f (x :: xs) ≠ none := by
  rw [firstMaxBy]
  split
  · simp
  · split <;> simp

lemma foldl_best_eq (f : α → ℕ) : ∀ (l : List α) (acc : α),
    l.foldl (fun best c => if f c > f best then c else best) acc
      = (match firstMaxBy f l with
          | none => acc
          | some y => if f y > f acc then y else acc) := by
  intro l
  induction l with
  | nil => intro acc; rfl
  | cons x xs ih =>
    intro acc
    rw [List.foldl_cons, ih, firstMaxBy]
    rcases hxs : firstMaxBy f xs with _ | y <;> simp only [hxs]
    by_cases hyx : f y > f x <;> by_cases hxa : f x > f acc <;>
        simp only [hyx, hxa, if_true, if_false] <;>
      first
      | rfl
      | rw [if_pos (by omega)]
      | rw [if_neg (by omega)]

/-- The source's best-child loop computes exactly the spec's rule: the first
child with the maximal visit count. -/
lemma bestChildLoop_eq_firstMaxBy (children : List (NTree M P)) :
    bestChildLoop children = firstMaxBy NTree.visits children := by
  cases children with
  | nil => rfl
  | cons c0 rest =>
    unfold bestChildLoop
    simp only
    rw [List.foldl_cons]
    rw [show (if c0.visits > c0.visits then c0 else c0) = c0 from by simp]
    rw [foldl_best_eq]
    rw [firstMaxBy]
    rcases hrest : firstMaxBy NTree.visits rest with _ | y
    · rfl
    · simp only
      split <;> rfl

/-- Characterisation of `firstMaxBy`: the result is a member attaining the
maximum, and every earlier member is strictly smaller (first-encountered
tie-breaking). -/
lemma firstMaxBy_spec {f : α → ℕ} : ∀ {l : List α} {c : α},
    firstMaxBy f l = some c →
    c ∈ l ∧ (∀ d ∈ l, f d ≤ f c) ∧
      ∃ i, l.get? i = some c ∧ ∀ j, j < i → ∀ d, l.get? j = some d → f d < f c := by
  intro l
  induction l with
  | nil => intro c h; simp [firstMaxBy] at h
  | cons x xs ih =>
    intro c h
    rw [firstMaxBy] at h
    rcases hxs : firstMaxBy f xs with _ | y <;> simp only [hxs] at h
    · -- no tail: xs = [] and c = x
      have hnil : xs = [] := by
        cases xs with
        | nil => rfl
        | cons a as => exact absurd hxs firstMaxBy_ne_none
      subst hnil
      injection h with h
      subst h
      exact ⟨List.mem_singleton.mpr rfl, by simp, 0, rfl, by omega⟩
    · obtain ⟨hmem, hmax, i, hi, hfirst⟩ := ih hxs
      by_cases hyx : f y > f x
      · rw [if_pos hyx] at h
        injection h with h
        subst h
        refine ⟨List.mem_cons_of_mem _ hmem, ?_, i + 1, by simpa using hi, ?_⟩
        · intro d hd
          rcases List.mem_cons.mp hd with hd | hd
          · subst hd; omega
          · exact hmax d hd
        · intro j hj d hd
          cases j with
          | zero =>
            simp at hd
            subst hd
            omega
          | succ j =>
            rw [List.get?_cons_succ] at hd
            exact hfirst j (by omega) d hd
      · rw [if_neg hyx] at h
        injection h with h
        subst h
        refine ⟨List.mem_cons_self .., ?_, 0, rfl, by omega⟩
        intro d hd
        rcases List.mem_cons.mp hd with hd | hd
        · subst hd; omega
        · have := hmax d hd
          omega

lemma bestChildLoop_isSome {children : List (NTree M P)} (h : children ≠ []) :
    ∃ b, bestChildLoop children = some b := by
  cases children with
  | nil => exact absurd rfl h
  | cons c0 rest => exact ⟨_, rfl⟩

/-- When every element scores the same, the first one is selected. -/
lemma firstMaxBy_head_of_all_eq {f : α → ℕ} {x : α} {xs : List α}
    (hall : ∀ d ∈ x :: xs, f d = f x) :
    firstMaxBy f (x :: xs) = some x := by
  rw [firstMaxBy]
  rcases hxs : firstMaxBy f xs with _ | y
  · simp [hxs]
  · simp only [hxs]
    have hy : y ∈ xs := (firstMaxBy_spec hxs).1
    have := hall y (List.mem_cons_of_mem _ hy)
    rw [if_neg (by omega)]

end BestChild

/-! ### Inversion of `selectMove` -/

section SelectInv

variable {S M P : Type} [DecidableEq P] {rules : GameRules S M P} {lt : LtNode M P}

/-- What a completed `selectMove` did: `rounds.toNat` simulations, a final
(idempotent) root expansion against the caller's game, then either the
"no possible moves" error or the most-visited child's move. -/
lemma selectMoveE_inv {fuel : ℕ} {m : MCTSState S M P} {rs : List ℕ}
    {res : Except String M} {m' : MCTSState S M P}
    (h : selectMoveE rules lt fuel m rs = some (res, m')) :
    ∃ m1 rs1, runSimulationsE rules lt fuel m.rounds.toNat m rs = some (m1, rs1) ∧
      m' = { m1 with rootNode := expandNode rules m1.rootNode m1.game } ∧
      ((m'.rootNode.children = [] ∧ res = .error "No possible moves available")
        ∨ ∃ best, m'.rootNode.children ≠ [] ∧
            bestChildLoop m'.rootNode.children = some best ∧
            ((best.move = none ∧ res = .error "Best child has null move")
              ∨ ∃ mv, best.move = some mv ∧ res = .ok mv)) := by
  unfold selectMoveE at h
  split at h
  · exact absurd h (by simp)
  · next m1 rs1 hrun =>
    refine ⟨m1, rs1, hrun, ?_⟩
    simp only [] at h
    split at h
    · next hlen =>
      injection h with h1
      injection h1 with ha hb
      exact ⟨hb.symm, .inl ⟨by rw [← hb]; exact List.length_eq_zero.mp hlen,
        ha.symm⟩⟩
    · next hlen =>
      split at h
      · next hbest =>
        obtain ⟨b, hb⟩ := bestChildLoop_isSome
          (show (expandNode rules m1.rootNode m1.game).children ≠ [] from
            fun hnil => hlen (by rw [hnil]; rfl))
        rw [hbest] at hb
        exact Option.noConfusion hb
      · next best hbest =>
        split at h
        · next hmv =>
          injection h with h1
          injection h1 with ha hb
          refine ⟨hb.symm, .inr ⟨best, ?_, ?_, .inl ⟨hmv, ha.symm⟩⟩⟩
          · rw [← hb]
            intro hnil
            rw [hnil] at hlen
            exact hlen rfl
          · rw [← hb]
            exact hbest
        · next mv hmv =>
          injection h with h1
          injection h1 with ha hb
          refine ⟨hb.symm, .inr ⟨best, ?_, ?_, .inr ⟨mv, hmv, ha.symm⟩⟩⟩
          · rw [← hb]
            intro hnil
            rw [hnil] at hlen
            exact hlen rfl
          · rw [← hb]
            exact hbest

end SelectInv

/-! ### The claims -/

section Claims

/-- C1 (counterexample): at a once-visited node whose one recorded
simulation was a draw (empty tally), with `parent.visits = 1`, the
implemented `getUCB1` returns `0.5` — the draw is worth half a point — while
the claimed reference definition returns `0`, and the implemented relation
rejects the claimed value: `getUCB1` does not equal the reference
definition. -/
theorem c1_ucb1_draw_counterexample :
    getUCB1Is ucbNode (some 1) 0 (some (1 / 2)) ∧
    getUCB1RefIs ucbNode (some 1) 0 (some 0) ∧
    ¬ getUCB1Is ucbNode (some 1) 0 (some 0) := by
  refine ⟨?_, ?_, ?_⟩
  · unfold getUCB1Is ucbNode
    norm_num [lookupWin, totalWins, Real.log_one, Real.sqrt_zero]
  · unfold getUCB1RefIs ucbNode
    norm_num [lookupWin, Real.log_one, Real.sqrt_zero]
  · unfold getUCB1Is ucbNode
    norm_num [lookupWin, totalWins, Real.log_one, Real.sqrt_zero]

/-- C1 (amended): `getUCB1(player)` equals the amended reference definition:
it returns `Infinity` when the node's visits are `0`, returns `0` at the
root, and otherwise returns
`(wins_for(player) + 0.5 * draws) / visits + sqrt(2 * ln(parent.visits) / visits)`
with `draws = visits - total wins over all players` — a simulation ending in
a draw contributes to `visits` and adds half a point (not zero) to the score
of every player. -/
theorem c1_ucb1_amended {M P : Type} [DecidableEq P] (t : NTree M P)
    (parentVisits : Option ℕ) (player : P) (value : Option ℝ) :
    getUCB1Is t parentVisits player value
      ↔ getUCB1AmendedIs t parentVisits player value :=
  Iff.rfl

/-- C7: chance-node selection ignores the UCB1 comparator and every
statistic.  For two expanded chance nodes with equally many children, under
arbitrary (even different) comparators, game rules and game states, but the
same random numbers, `nextMove` returns the same child index — the last
element of the uniformly shuffled children list — so trees differing only in
visit counts and win tallies yield the same choice. -/
theorem c7_chance_node_uniform {S1 S2 M P : Type} [DecidableEq P]
    (lt1 lt2 : LtNode M P) (rules1 : GameRules S1 M P) (rules2 : GameRules S2 M P)
    (t1 t2 : NTree M P) (s1 : S1) (s2 : S2) (rs : List ℕ)
    (h1r : t1.randomNode = true) (h2r : t2.randomNode = true)
    (h1e : t1.expanded = true) (h2e : t2.expanded = true)
    (hlen : t1.children.length = t2.children.length)
    (hne : t1.children ≠ []) :
    ∃ idx,
      (shuffle (List.range t1.children.length) rs).1.getLast? = some idx ∧
      nextMoveIdx lt1 rules1 t1 s1 rs
        = some (idx, (shuffle (List.range t1.children.length) rs).2) ∧
      nextMoveIdx lt2 rules2 t2 s2 rs
        = some (idx, (shuffle (List.range t1.children.length) rs).2) := by
  have hn : t1.children.length ≠ 0 := fun h0 => hne (List.length_eq_zero.mp h0)
  obtain ⟨idx, hlast⟩ : ∃ idx,
      (shuffle (List.range t1.children.length) rs).1.getLast? = some idx := by
    cases hl : (shuffle (List.range t1.children.length) rs).1.getLast? with
    | none =>
      have hnil := List.getLast?_eq_none_iff.mp hl
      have hlen2 := length_shuffle (List.range t1.children.length) rs
      rw [hnil] at hlen2
      simp at hlen2
      exact absurd hlen2.symm hn
    | some i => exact ⟨i, rfl⟩
  refine ⟨idx, hlast, ?_, ?_⟩
  · unfold nextMoveIdx
    simp only [expandNode_of_expanded _ _ _ h1e, h1r, eq_self_iff_true, if_true,
      eq_false hn, if_false]
    rw [hlast]
  · unfold nextMoveIdx
    simp only [expandNode_of_expanded _ _ _ h2e, h2r, eq_self_iff_true, if_true]
    simp only [← hlen, eq_false hn, if_false]
    rw [hlast]

/-- C7 (witness): on two concrete chance nodes of the same shape but with
different statistics, the same random draw selects the same child index. -/
theorem c7_witness :
    nextMoveIdx ltF noMovesRules chanceT1 () [3] = some (1, []) ∧
    nextMoveIdx ltF noMovesRules chanceT2 () [3] = some (1, []) := by
  obtain ⟨idx, hlast, h1, h2⟩ := c7_chance_node_uniform ltF ltF noMovesRules noMovesRules
    chanceT1 chanceT2 () () [3] rfl rfl rfl rfl rfl (by simp [chanceT1])
  have h1eq : some idx = some 1 := hlast.symm.trans rfl
  injection h1eq with h1eq
  subst h1eq
  exact ⟨h1, h2⟩

/-- C8: expansion is idempotent.  After `getChildren` once, the node is
marked expanded, and a second expansion — under any game rules and any
state, so in particular without querying the move generator again — returns
the identical node: same children (same moves, same order, no duplicates)
and the same chance-node flag. -/
theorem c8_expansion_idempotent {S S2 M P : Type} (rules : GameRules S M P)
    (rules2 : GameRules S2 M P) (t : NTree M P) (s : S) (s2 : S2) :
    (expandNode rules t s).expanded = true ∧
    expandNode rules2 (expandNode rules t s) s2 = expandNode rules t s ∧
    (expandNode rules2 (expandNode rules t s) s2).randomNode
      = (expandNode rules t s).randomNode := by
  refine ⟨expanded_expandNode .., expandNode_of_expanded _ _ _ (expanded_expandNode ..), ?_⟩
  rw [expandNode_of_expanded _ _ _ (expanded_expandNode ..)]

/-- C10: `getBestMove` and `getMoveStats` read the raw `children` field and
never expand the root: on an engine whose root children are not yet
materialized they return `null` and the empty list.  (In this pure
embedding both are plain functions of the state, so they cannot modify any
node's children, visits or tallies.) -/
theorem c10_accessors_before_expansion {S M P : Type} [DecidableEq P]
    (rules : GameRules S M P) (m : MCTSState S M P)
    (h : m.rootNode.expanded = false) :
    getBestMove m = none ∧ getMoveStats rules m = [] := by
  constructor
  · unfold getBestMove
    rw [h]
    rfl
  · unfold getMoveStats
    rw [h]
    rfl

/-- C10 (witness): on a fresh two-cell engine (no simulations, root
unexpanded) `getBestMove` is `none` and `getMoveStats` is empty. -/
theorem c10_witness :
    getBestMove twoCellFresh = none ∧ getMoveStats twoCellRules twoCellFresh = [] :=
  c10_accessors_before_expansion twoCellRules twoCellFresh rfl

/-- C3: for every game whose starting position has at least one legal move
and every round count whose effective simulation count `N.toNat` is at least
one, after `selectMove` completes its simulations the root's visit count
equals that count, and the sum of the direct children's visit counts equals
it as well — each simulation increments the root once and then exactly one
direct child of the root. -/
theorem c3_visit_count_invariant {S M P : Type} [DecidableEq P]
    (rules : GameRules S M P) (lt : LtNode M P) (fuel : ℕ) (g : S) (N : ℤ)
    (rs : List ℕ) (res : Except String M) (m' : MCTSState S M P)
    (hmoves : (rules.getPossibleMoves g).moves ≠ [])
    (hN : 1 ≤ N.toNat)
    (h : selectMoveE rules lt fuel (mkMCTS g (some N)) rs = some (res, m')) :
    m'.rootNode.visits = N.toNat ∧ childVisitSum m'.rootNode = N.toNat := by
  obtain ⟨m1, rs1, hrun, hm', hcase⟩ := selectMoveE_inv h
  have hch : (expandNode rules (mkMCTS g (some N) : MCTSState S M P).rootNode
      (mkMCTS g (some N) : MCTSState S M P).game).children
      = (rules.getPossibleMoves g).moves.map NTree.fresh := by
    rw [children_expandNode_of_not_expanded _ _ _
      (show (mkMCTS g (some N) : MCTSState S M P).rootNode.expanded = false from rfl),
      mkMCTS_game]
  have hne : (expandNode rules (mkMCTS g (some N) : MCTSState S M P).rootNode
      (mkMCTS g (some N) : MCTSState S M P).game).children ≠ [] := by
    rw [hch]
    simpa using hmoves
  obtain ⟨hg, hr2, hv, hzero, hpos⟩ := runSimulationsE_stats hne hrun
  obtain ⟨hexp, hlen, hmap, hsum⟩ := hpos (by simpa using hN)
  have hm'root : m'.rootNode = m1.rootNode := by
    rw [hm']
    exact expandNode_of_expanded _ _ _ hexp
  rw [hm'root]
  have hsum0 : childVisitSum (expandNode rules
      (mkMCTS g (some N) : MCTSState S M P).rootNode
      (mkMCTS g (some N) : MCTSState S M P).game) = 0 := by
    unfold childVisitSum
    rw [hch, childVisit_map_fresh]
  constructor
  · rw [hv]
    simp
  · rw [hsum, hsum0]
    simp

/-- C3 (witness): one round on the single-cell game leaves the root with one
visit, and one visit total on its direct children. -/
theorem c3_witness :
    singleCellRun1.rootNode.visits = (1 : ℤ).toNat ∧
    childVisitSum singleCellRun1.rootNode = (1 : ℤ).toNat :=
  c3_visit_count_invariant singleCellRules ltF 10 none 1 [] (.ok 0) singleCellRun1
    (by decide) (by decide) rfl

/-- C4: after its simulations, `selectMove` returns the move of the root
child designated by `firstMaxBy visits` — and that designated child carries
the highest visit count among the root's children (not the highest win
rate), with ties resolved in favour of the earliest child in the order the
move generator produced the moves: every earlier child has strictly fewer
visits. -/
theorem c4_robust_child {S M P : Type} [DecidableEq P]
    (rules : GameRules S M P) (lt : LtNode M P) (fuel : ℕ)
    (m : MCTSState S M P) (rs : List ℕ) (mv : M) (m' : MCTSState S M P)
    (h : selectMoveE rules lt fuel m rs = some (.ok mv, m')) :
    (firstMaxBy NTree.visits m'.rootNode.children).map NTree.move = some (some mv) ∧
    ∀ c, firstMaxBy NTree.visits m'.rootNode.children = some c →
      c ∈ m'.rootNode.children ∧
      (∀ d ∈ m'.rootNode.children, d.visits ≤ c.visits) ∧
      ∃ i, m'.rootNode.children.get? i = some c ∧
        ∀ j, j < i → ∀ d, m'.rootNode.children.get? j = some d → d.visits < c.visits := by
  obtain ⟨m1, rs1, hrun, hm', hcase⟩ := selectMoveE_inv h
  rcases hcase with ⟨hch, hres⟩ | ⟨best, hne2, hbest, hcase2⟩
  · exact absurd hres (by simp)
  · rcases hcase2 with ⟨hmvnone, hres⟩ | ⟨mv2, hmv2, hres⟩
    · exact absurd hres (by simp)
    · injection hres with hmveq
      subst hmveq
      rw [bestChildLoop_eq_firstMaxBy] at hbest
      constructor
      · rw [hbest]
        simp [hmv2]
      · intro c hc
        rw [hbest] at hc
        injection hc with hc
        subst hc
        exact firstMaxBy_spec hbest

/-- C4 (witness): zero rounds on the two-cell game leave both children tied
at zero visits; the first child's move `0` is returned. -/
theorem c4_witness :
    (firstMaxBy NTree.visits twoCellExpanded.rootNode.children).map NTree.move
      = some (some 0) :=
  (c4_robust_child twoCellRules ltF 1 (mkMCTS ((none, none), 0) (some 0)) [] 0
    twoCellExpanded rfl).1

/-- C5: the search never mutates the caller's game.  After any number of
simulations, and after a full `selectMove`, the engine's stored game state
is exactly the state it was given — `performMove` is applied only to the
per-simulation copy.  (In this pure embedding `clone()` is the value itself
and the game observers are pure functions, which is the claim's proviso.) -/
theorem c5_game_not_mutated {S M P : Type} [DecidableEq P]
    (rules : GameRules S M P) (lt : LtNode M P) (fuel : ℕ) (n : ℕ)
    (m : MCTSState S M P) (rs : List ℕ) (m' : MCTSState S M P) (rs' : List ℕ)
    (res : Except String M) (m2 : MCTSState S M P) :
    (runSimulationsE rules lt fuel n m rs = some (m', rs') → m'.game = m.game) ∧
    (selectMoveE rules lt fuel m rs = some (res, m2) → m2.game = m.game) := by
  constructor
  · intro h
    exact (runSimulationsE_frame h).1
  · intro h
    obtain ⟨m1, rs1, hrun, hm2, _⟩ := selectMoveE_inv h
    rw [hm2]
    exact (runSimulationsE_frame hrun).1

/-- C5 (witness): two simulations, and a full `selectMove`, on the
single-cell game leave the stored game state untouched. -/
theorem c5_witness :
    singleCellRun2.game = singleCellStart1.game ∧
    singleCellRun1.game = singleCellStart1.game :=
  ⟨(c5_game_not_mutated singleCellRules ltF 10 2 singleCellStart1 [] singleCellRun2 []
      (.ok 0) singleCellRun1).1 rfl,
   (c5_game_not_mutated singleCellRules ltF 10 2 singleCellStart1 [] singleCellRun2 []
      (.ok 0) singleCellRun1).2 rfl⟩

/-- C6: one completed simulation updates the tree exactly as `WalkPath`
describes, with `w` the winner reported by `rules.getWinner` at the terminal
position reached (existential only because `runSimulation` returns nothing;
the `WalkPath` conjunct pins it to the terminal position): node by node
along the traversal path — the bumped root through the terminal node,
inclusive — exactly that winner's tally is incremented by 1 (`bumpWinOpt`),
every descended-to node's visit count is incremented by 1, and no off-path
node changes (`setChild`).  Consequently, for a path of `k` nodes: total
visits rise by `k`; when `w = some p`, player `p`'s total tally rises by
exactly `k` and every other player's total tally is unchanged; when the
terminal position is a draw (`w = none`), no player's tally changes
anywhere, though the visits still rise by `k`. -/
theorem c6_backprop {S M P : Type} [DecidableEq P]
    (rules : GameRules S M P) (lt : LtNode M P) (fuel : ℕ)
    (m : MCTSState S M P) (rs : List ℕ) (m' : MCTSState S M P) (rs' : List ℕ)
    (hwf : wfT m.rootNode = true)
    (h : runSimulationE rules lt fuel m rs = some (m', rs')) :
    ∃ w, WalkPath rules m.rootNode.bumpVisits m.game m'.rootNode w ∧
      ∃ k, 1 ≤ k ∧
        treeVisits m'.rootNode = treeVisits m.rootNode + k ∧
        (∀ p, w = some p →
          treeWins m'.rootNode p = treeWins m.rootNode p + k ∧
          ∀ q, q ≠ p → treeWins m'.rootNode q = treeWins m.rootNode q) ∧
        (w = none → ∀ q, treeWins m'.rootNode q = treeWins m.rootNode q) := by
  unfold runSimulationE at h
  split at h
  · exact absurd h (by simp)
  · next root' w0 rs0 hsw =>
    injection h with h1
    injection h1 with ha hb
    subst ha
    refine ⟨w0, ?_, ?_⟩
    · show WalkPath rules m.rootNode.bumpVisits m.game root' w0
      exact simWalk_walkPath hsw
    · obtain ⟨k, hv, hw⟩ := simWalk_backprop (wfT_bumpVisits hwf) hsw
      rw [treeVisits_bumpVisits] at hv
      refine ⟨k + 1, by omega, ?_, ?_, ?_⟩
      · show treeVisits root' = treeVisits m.rootNode + (k + 1)
        omega
      · intro p hp
        constructor
        · show treeWins root' p = treeWins m.rootNode p + (k + 1)
          have hwp := hw p
          rw [treeWins_bumpVisits, hp] at hwp
          simpa using hwp
        · intro q hq
          show treeWins root' q = treeWins m.rootNode q
          have hwq := hw q
          rw [treeWins_bumpVisits, hp] at hwq
          have hne2 : ¬ (some p = some q) := fun hh => hq (Option.some.inj hh).symm
          rw [if_neg hne2] at hwq
          simpa using hwq
      · intro hnone q
        show treeWins root' q = treeWins m.rootNode q
        have hwq := hw q
        rw [treeWins_bumpVisits, hnone] at hwq
        rw [if_neg (by simp)] at hwq
        simpa using hwq

/-- C6 (witness): a winning run on the single-cell game — terminal winner is
player `0` — adds one visit and one tally for player `0` on each of the two
path nodes while player `1`'s tally stays untouched; a run on the no-move
game ends in a terminal draw at the root, which still counts the visit but
credits nobody. -/
theorem c6_witness :
    (wfT singleCellStart1.rootNode = true ∧
      treeVisits singleCellRun1.rootNode = treeVisits singleCellStart1.rootNode + 2 ∧
      treeWins singleCellRun1.rootNode 0 = treeWins singleCellStart1.rootNode 0 + 2 ∧
      treeWins singleCellRun1.rootNode 1 = treeWins singleCellStart1.rootNode 1) ∧
    (wfT noMovesStart.rootNode = true ∧
      treeVisits noMovesRun1.rootNode = treeVisits noMovesStart.rootNode + 1 ∧
      treeWins noMovesRun1.rootNode 0 = treeWins noMovesStart.rootNode 0) := by
  constructor
  · obtain ⟨w, hwp, k, hk, hv, hwin, hdraw⟩ := c6_backprop singleCellRules ltF 10
      singleCellStart1 [] singleCellRun1 [] (by simp [singleCellStart1, mkMCTS]) rfl
    have hL : treeVisits singleCellRun1.rootNode = 2 := by
      simp [singleCellRun1]
    have hR : treeVisits singleCellStart1.rootNode = 0 := by
      simp [singleCellStart1, mkMCTS]
    have hW0L : treeWins singleCellRun1.rootNode 0 = 2 := by
      simp [singleCellRun1, lookupWin]
    have hW0R : treeWins singleCellStart1.rootNode 0 = 0 := by
      simp [singleCellStart1, mkMCTS, lookupWin]
    have hw0 : w = some 0 := by
      cases w with
      | none => exact absurd (hdraw rfl 0) (by omega)
      | some q =>
        by_cases hq0 : q = 0
        · rw [hq0]
        · exact absurd ((hwin q rfl).2 0 (fun hh => hq0 hh.symm)) (by omega)
    obtain ⟨hwinp, hothers⟩ := hwin 0 hw0
    refine ⟨by simp [singleCellStart1, mkMCTS], by omega, by omega, ?_⟩
    exact hothers 1 (by decide)
  · obtain ⟨w, hwp, k, hk, hv, hwin, hdraw⟩ := c6_backprop noMovesRules ltF 5
      noMovesStart [] noMovesRun1 [] (by simp [noMovesStart, mkMCTS]) rfl
    have hL : treeVisits noMovesRun1.rootNode = 1 := by
      simp [noMovesRun1]
    have hR : treeVisits noMovesStart.rootNode = 0 := by
      simp [noMovesStart, mkMCTS]
    refine ⟨by simp [noMovesStart, mkMCTS], by omega, ?_⟩
    cases w with
    | none => exact hdraw rfl 0
    | some q =>
      have h1 := (hwin q rfl).1
      have hQL : treeWins noMovesRun1.rootNode q = 0 := by
        simp [noMovesRun1, lookupWin]
      have hQR : treeWins noMovesStart.rootNode q = 0 := by
        simp [noMovesStart, mkMCTS, lookupWin]
      omega

/-- C9: whenever the starting position offers exactly one move (as in any
game with a single always-available move leading to a certain win, the
single-cell game being the concrete instance), `selectMove` returns that
move — for every round count, every comparator and every sequence of random
choices made during shuffling. -/
theorem c9_forced_move {S M P : Type} [DecidableEq P]
    (rules : GameRules S M P) (lt : LtNode M P) (fuel : ℕ) (g : S)
    (r : Option ℤ) (rs : List ℕ) (mv : M) (res : Except String M)
    (m' : MCTSState S M P)
    (hmoves : (rules.getPossibleMoves g).moves = [mv])
    (h : selectMoveE rules lt fuel (mkMCTS g r) rs = some (res, m')) :
    res = .ok mv := by
  obtain ⟨m1, rs1, hrun, hm', hcase⟩ := selectMoveE_inv h
  have hch : (expandNode rules (mkMCTS g r : MCTSState S M P).rootNode
      (mkMCTS g r : MCTSState S M P).game).children = [NTree.fresh mv] := by
    rw [children_expandNode_of_not_expanded _ _ _
      (show (mkMCTS g r : MCTSState S M P).rootNode.expanded = false from rfl),
      mkMCTS_game, hmoves]
    rfl
  have hne : (expandNode rules (mkMCTS g r : MCTSState S M P).rootNode
      (mkMCTS g r : MCTSState S M P).game).children ≠ [] := by
    rw [hch]
    simp
  obtain ⟨hg, hr2, hv, hzero, hpos⟩ := runSimulationsE_stats hne hrun
  have hm'root : m'.rootNode = expandNode rules m1.rootNode m1.game := by
    rw [hm']
  have hmm : m'.rootNode.children.map NTree.move = [some mv] := by
    rcases Nat.eq_zero_or_pos (mkMCTS g r : MCTSState S M P).rounds.toNat with h0 | h1
    · have hm1 := hzero h0
      rw [hm'root, hm1, hch]
      rfl
    · obtain ⟨hexp, hlen, hmap, hsum⟩ := hpos h1
      rw [hm'root, expandNode_of_expanded _ _ _ hexp, hmap, hch]
      rfl
  obtain ⟨c, hc, hcmv⟩ : ∃ c, m'.rootNode.children = [c] ∧ c.move = some mv := by
    rcases hcl : m'.rootNode.children with _ | ⟨c, rest⟩
    · rw [hcl] at hmm
      simp at hmm
    · rw [hcl] at hmm
      simp only [List.map_cons] at hmm
      injection hmm with hm1 hm2
      have hrest : rest = [] := by
        cases rest with
        | nil => rfl
        | cons d ds => simp at hm2
      exact ⟨c, by rw [hrest], hm1⟩
  rcases hcase with ⟨hch0, hres⟩ | ⟨best, hne2, hbest, hcase2⟩
  · rw [hc] at hch0
    simp at hch0
  · rw [hc] at hbest
    have hsingle : bestChildLoop [c] = some c := by
      rw [bestChildLoop_eq_firstMaxBy]
      rfl
    rw [hsingle] at hbest
    injection hbest with hbest
    subst hbest
    rcases hcase2 with ⟨hmv0, hres⟩ | ⟨mv2, hmv2, hres⟩
    · rw [hmv0] at hcmv
      exact Option.noConfusion hcmv
    · rw [hcmv] at hmv2
      injection hmv2 with hmv2
      rw [hres, hmv2]

/-- C9 (witness): the single-cell game, one round: `selectMove` returns the
single move `0`. -/
theorem c9_witness :
    selectMoveE singleCellRules ltF 10 (mkMCTS none (some 1)) []
      = some (.ok 0, singleCellRun1) ∧
    (Except.ok 0 : Except String ℕ) = .ok 0 :=
  ⟨rfl, c9_forced_move singleCellRules ltF 10 none (some 1) [] 0 (.ok 0) singleCellRun1
    rfl rfl⟩

/-- C2 (counterexample): searching from a position with no legal moves does
not surface a returned "no move available" value — `selectMove` throws
`Error('No possible moves available')` (a thrown fault, encoded as
`Except.error`), here with two configured rounds. -/
theorem c2_counterexample :
    (selectMoveE noMovesRules ltF 1 (mkMCTS () (some 2)) []).map Prod.fst
      = some (.error "No possible moves available") := rfl

/-- C2 (amended): the two misuse inputs are surfaced differently.
Searching from a position with no legal moves at all makes `selectMove`
throw `Error('No possible moves available')` — a thrown fault, not a
returned value — for every round count; a zero or negative round count alone
is not an error: `selectMove` then runs no simulations and returns the
first legal move. -/
theorem c2_misuse_behavior {S M P : Type} [DecidableEq P]
    (rules : GameRules S M P) (lt : LtNode M P) (fuel : ℕ) (g : S) (r : ℤ)
    (rs : List ℕ) :
    ((rules.getPossibleMoves g).moves = [] → 1 ≤ fuel →
      (selectMoveE rules lt fuel (mkMCTS g (some r)) rs).map Prod.fst
        = some (.error "No possible moves available")) ∧
    (∀ mv0 rest, r ≤ 0 → (rules.getPossibleMoves g).moves = mv0 :: rest →
      (selectMoveE rules lt fuel (mkMCTS g (some r)) rs).map Prod.fst
        = some (.ok mv0)) := by
  constructor
  · intro hmoves hfuel
    obtain ⟨m1, rs1, hrun, hg, hr2, hch⟩ :=
      runSimulationsE_noMoves hfuel
        (mkMCTS g (some r) : MCTSState S M P).rounds.toNat
        (mkMCTS g (some r)) rs (by simpa using hmoves) rfl
    have hch2 : (expandNode rules m1.rootNode m1.game).children = [] :=
      expandNode_children_empty (by rw [hg]; simpa using hmoves) hch
    unfold selectMoveE
    rw [hrun]
    simp [hch2]
  · intro mv0 rest hr hmoves
    have h0 : (mkMCTS g (some r) : MCTSState S M P).rounds.toNat = 0 := by
      simp [Int.toNat_of_nonpos hr]
    unfold selectMoveE
    rw [h0, runSimulationsE]
    have hch2 : (expandNode rules (mkMCTS g (some r) : MCTSState S M P).rootNode
        (mkMCTS g (some r) : MCTSState S M P).game).children
        = NTree.fresh mv0 :: rest.map NTree.fresh := by
      rw [children_expandNode_of_not_expanded _ _ _
        (show (mkMCTS g (some r) : MCTSState S M P).rootNode.expanded = false from rfl),
        mkMCTS_game, hmoves]
      rfl
    have hall : ∀ d ∈ NTree.fresh (P := P) mv0 :: rest.map NTree.fresh,
        NTree.visits d = (NTree.fresh (P := P) mv0).visits := by
      intro d hd
      rcases List.mem_cons.mp hd with hd | hd
      · rw [hd]
      · obtain ⟨a, _, rfl⟩ := List.mem_map.mp hd
        rfl
    simp only [hch2, bestChildLoop_eq_firstMaxBy, firstMaxBy_head_of_all_eq hall]
    simp

/-- C2 (witness): the no-move game throws; the single-cell game with round
count `-5` returns its first legal move without error. -/
theorem c2_witness :
    (selectMoveE noMovesRules ltF 1 (mkMCTS () (some 3)) []).map Prod.fst
      = some (.error "No possible moves available") ∧
    (selectMoveE singleCellRules ltF 1 (mkMCTS none (some (-5))) []).map Prod.fst
      = some (.ok 0) :=
  ⟨(c2_misuse_behavior noMovesRules ltF 1 () 3 []).1 rfl (by omega),
   (c2_misuse_behavior singleCellRules ltF 1 none (-5) []).2 0 [] (by omega) rfl⟩

end Claims

end Mcts
